import Mathlib

/-!
A shallow embedding of the kvslite storage engine (record codec, WAL
replay-with-truncation, and the database facade) together with proofs of the
specification's testable properties.

Bytes are modelled as natural numbers (values below 256 in well-formed data),
byte buffers as `List Nat`, fallible operations as `Except Error`, and the
stateful database as explicit state passing over a pure `Db` structure whose
`file` field holds the WAL contents.
-/

namespace Kvslite

/-! ## CRC-32 (IEEE, reflected), as implemented by the crc32fast crate

The checksum is modelled at bit level: the 32-bit state is a `List Bool` of
length 32, least-significant bit first, bytes are fed least-significant bit
first, the initial state is all ones and the final state is complemented. -/

/-- The eight bits of a byte, least-significant first. -/
def byteBits (b : Nat) : List Bool :=
  [b.testBit 0, b.testBit 1, b.testBit 2, b.testBit 3,
   b.testBit 4, b.testBit 5, b.testBit 6, b.testBit 7]

/-- All bits of a byte string, in processing order. -/
def bytesBits : List Nat → List Bool
  | [] => []
  | b :: bs => byteBits b ++ bytesBits bs

/-- The reflected CRC-32 polynomial 0xEDB88320, least-significant bit first. -/
def polyBits : List Bool :=
  byteBits 0x20 ++ byteBits 0x83 ++ byteBits 0xB8 ++ byteBits 0xED

/-- Pointwise exclusive or of two bit vectors. -/
def zxor (a b : List Bool) : List Bool := List.zipWith Bool.xor a b

/-- One step of the bitwise reflected CRC-32 update. -/
def crcStep (s : List Bool) (b : Bool) : List Bool :=
  if Bool.xor (s.getD 0 false) b then zxor (s.drop 1 ++ [false]) polyBits
  else s.drop 1 ++ [false]

/-- Feed a message (bit list) through the CRC state machine. -/
def crcRun : List Bool → List Bool → List Bool
  | [], s => s
  | b :: m, s => crcRun m (crcStep s b)

/-- Natural number denoted by a bit list, least-significant bit first. -/
def natOfBits : List Bool → Nat
  | [] => 0
  | b :: l => (cond b 1 0) + 2 * natOfBits l

/-- CRC-32 checksum of a byte string (init all ones, final complement). -/
def crc32 (bytes : List Nat) : Nat :=
  natOfBits ((crcRun (bytesBits bytes) (List.replicate 32 true)).map Bool.not)

/-! ## Record codec (src/codec.rs) -/

/-- Magic bytes `K`, `V`, `S`, `L`. -/
def MAGIC : List Nat := [75, 86, 83, 76]

/-- Current format version. -/
def VERSION : Nat := 1

/-- Kind byte for PUT records. -/
def KIND_PUT : Nat := 1

/-- Kind byte for DELETE records. -/
def KIND_DELETE : Nat := 2

/-- Maximum key size in bytes (1 KiB). -/
def MAX_KEY_SIZE : Nat := 1024

/-- Maximum value size in bytes (1 MiB). -/
def MAX_VALUE_SIZE : Nat := 1024 * 1024

/-- Maximum total record size in bytes (2 MiB). -/
def MAX_RECORD_SIZE : Nat := 2 * 1024 * 1024

/-- Size of the frame header: magic(4) + rec_len(4) + version(1) + kind(1) +
key_len(4) + val_len(4). -/
def HEADER_SIZE : Nat := 18

/-- Record kind: a write or a tombstone. -/
inductive RecordKind where
  | put
  | delete
deriving DecidableEq, Repr

/-- A WAL record: one logical write operation. -/
structure Record where
  kind : RecordKind
  key : List Nat
  value : List Nat
deriving DecidableEq, Repr

/-- Error taxonomy (src/error.rs). The sole I/O error that can arise in the
pure decode model is an unexpected end of input surfaced through the
`From<io::Error>` conversion, modelled by `ioUnexpectedEof`. -/
inductive Error where
  | ioUnexpectedEof
  | crcMismatch (expected actual : Nat)
  | invalidMagic (expected actual : List Nat)
  | unsupportedVersion (v : Nat)
  | invalidRecordKind (k : Nat)
  | unexpectedEof
  | valueTooLarge (size max : Nat)
  | keyTooLarge (size max : Nat)
deriving DecidableEq, Repr

/-- Validated constructor for a PUT record (Record::put). -/
def Record.mkPut (key value : List Nat) : Except Error Record :=
  if key.length > MAX_KEY_SIZE then
    .error (.keyTooLarge key.length MAX_KEY_SIZE)
  else if value.length > MAX_VALUE_SIZE then
    .error (.valueTooLarge value.length MAX_VALUE_SIZE)
  else
    .ok { kind := .put, key := key, value := value }

/-- Validated constructor for a DELETE record (Record::delete). -/
def Record.mkDelete (key : List Nat) : Except Error Record :=
  if key.length > MAX_KEY_SIZE then
    .error (.keyTooLarge key.length MAX_KEY_SIZE)
  else
    .ok { kind := .delete, key := key, value := [] }

/-- Little-endian 4-byte encoding of a 32-bit quantity. -/
def toLE4 (n : Nat) : List Nat :=
  [n % 256, n / 256 % 256, n / 65536 % 256, n / 16777216 % 256]

/-- Read a little-endian u32 from the front of a byte list. -/
def fromLE4 (l : List Nat) : Nat :=
  l.getD 0 0 + 256 * l.getD 1 0 + 65536 * l.getD 2 0 + 16777216 * l.getD 3 0

/-- The kind byte written for a record kind. -/
def RecordKind.toByte : RecordKind → Nat
  | .put => KIND_PUT
  | .delete => KIND_DELETE

/-- Encode a record into its on-disk frame (Record::encode). The CRC covers
the bytes from `rec_len` through the end of the value. In the source, encode
returns `Result` but its error path is unreachable (writes to a vector cannot
fail), so the model is total. -/
def Record.encode (r : Record) : List Nat :=
  let recLen := HEADER_SIZE + r.key.length + r.value.length + 4
  let body := toLE4 recLen ++ [VERSION, r.kind.toByte] ++
    toLE4 r.key.length ++ toLE4 r.value.length ++ r.key ++ r.value
  MAGIC ++ body ++ toLE4 (crc32 body)

/-- Model of `Read::read_exact`: take exactly `n` bytes from the front, or
fail (returning `none`) when fewer than `n` remain. -/
def readExact (n : Nat) (input : List Nat) : Option (List Nat × List Nat) :=
  if n ≤ input.length then some (input.take n, input.drop n) else none

/-- Length fields and payload extraction of a frame body, after the CRC,
version and kind checks have passed (tail of Record::decode). `remaining` is
the frame body after magic and rec_len; `rest` the unconsumed stream. -/
def decodeFields (kind : RecordKind) (remaining rest : List Nat) :
    Except Error (Option Record × List Nat) :=
  if fromLE4 ((remaining.drop 2).take 4) > MAX_KEY_SIZE then
    .error (.keyTooLarge (fromLE4 ((remaining.drop 2).take 4)) MAX_KEY_SIZE)
  else if fromLE4 ((remaining.drop 6).take 4) > MAX_VALUE_SIZE then
    .error (.valueTooLarge (fromLE4 ((remaining.drop 6).take 4)) MAX_VALUE_SIZE)
  else if 10 + fromLE4 ((remaining.drop 2).take 4) + fromLE4 ((remaining.drop 6).take 4) >
      remaining.length - 4 then
    .error .unexpectedEof
  else
    .ok (some ⟨kind, (remaining.drop 10).take (fromLE4 ((remaining.drop 2).take 4)),
      (remaining.drop (10 + fromLE4 ((remaining.drop 2).take 4))).take
        (fromLE4 ((remaining.drop 6).take 4))⟩, rest)

/-- CRC, version and kind checks on a frame body (middle of Record::decode).
The stored CRC is the last four body bytes; the computed CRC covers the
rec_len bytes and the body up to the stored CRC. -/
def decodeFrame (recLenBytes remaining rest : List Nat) :
    Except Error (Option Record × List Nat) :=
  if fromLE4 (remaining.drop (remaining.length - 4)) ≠
      crc32 (recLenBytes ++ remaining.take (remaining.length - 4)) then
    .error (.crcMismatch (fromLE4 (remaining.drop (remaining.length - 4)))
      (crc32 (recLenBytes ++ remaining.take (remaining.length - 4))))
  else if remaining.getD 0 0 ≠ VERSION then
    .error (.unsupportedVersion (remaining.getD 0 0))
  else if remaining.getD 1 0 = KIND_PUT then decodeFields .put remaining rest
  else if remaining.getD 1 0 = KIND_DELETE then decodeFields .delete remaining rest
  else .error (.invalidRecordKind (remaining.getD 1 0))

/-- Decode one frame from the front of a byte stream (Record::decode).
Returns `ok (none, _)` on end of input at (or within 3 bytes of) a frame
boundary, `ok (some r, rest)` on success with `rest` the unconsumed bytes,
and an error otherwise. Short reads after the magic surface as
`ioUnexpectedEof` via the io-error conversion, exactly as `?` does in the
source. -/
def Record.decode (input : List Nat) : Except Error (Option Record × List Nat) :=
  match readExact 4 input with
  | none => .ok (none, [])
  | some (magic, r1) =>
    if magic ≠ MAGIC then .error (.invalidMagic MAGIC magic)
    else
      match readExact 4 r1 with
      | none => .error .ioUnexpectedEof
      | some (recLenBytes, r2) =>
        if fromLE4 recLenBytes < HEADER_SIZE + 4 ∨
            fromLE4 recLenBytes > MAX_RECORD_SIZE then
          .error .unexpectedEof
        else
          match readExact (fromLE4 recLenBytes - 8) r2 with
          | none => .error .ioUnexpectedEof
          | some (remaining, rest) => decodeFrame recLenBytes remaining rest

/-! ## WAL manager (src/wal.rs) -/

/-- Statistics gathered by `Wal::replay`. -/
structure ReplayStats where
  total_records : Nat
  valid_records : Nat
  corrupted_records : Nat
  truncated_bytes : Nat
deriving DecidableEq, Repr

/-- The replay loop. `fileLen` is the length of the whole file, `input` the
unprocessed suffix, `recs`/`total`/`valid` the accumulators. Returns the
recovered records, the statistics, and the new file length (the file is
truncated to the end of the last valid record on a decode error). The last
valid offset is the stream position at the start of the failing frame,
`fileLen - input.length`. -/
def replayGo (fileLen : Nat) (input : List Nat) (recs : List Record)
    (total valid : Nat) : List Record × ReplayStats × Nat :=
  match h : Record.decode input with
  | .ok (some r, rest) => replayGo fileLen rest (recs ++ [r]) (total + 1) (valid + 1)
  | .ok (none, _) => (recs, ⟨total, valid, 0, 0⟩, fileLen)
  | .error _ =>
      let lastValid := fileLen - input.length
      (recs, ⟨total + 1, valid, 1, fileLen - lastValid⟩, lastValid)
termination_by input.length
decreasing_by
  unfold Record.decode at h
  split at h
  · exact absurd h (by simp)
  rename_i magic r1 h1
  unfold readExact at h1
  split at h1
  case _ hle =>
    simp only [Option.some.injEq, Prod.mk.injEq] at h1
    obtain ⟨-, hr1⟩ := h1
    split at h
    · exact absurd h (by simp)
    split at h
    · exact absurd h (by simp)
    rename_i recLenBytes r2 h2
    unfold readExact at h2
    split at h2
    case _ hle2 =>
      simp only [Option.some.injEq, Prod.mk.injEq] at h2
      obtain ⟨-, hr2⟩ := h2
      split at h
      · exact absurd h (by simp)
      rename_i hbounds
      split at h
      · exact absurd h (by simp)
      rename_i remaining rest0 h3
      unfold readExact at h3
      split at h3
      case _ hle3 =>
        simp only [Option.some.injEq, Prod.mk.injEq] at h3
        obtain ⟨-, hrest0⟩ := h3
        have hr : rest0 = rest := by
          unfold decodeFrame at h
          split at h
          · exact absurd h (by simp)
          split at h
          · exact absurd h (by simp)
          split at h
          · unfold decodeFields at h
            split at h
            · exact absurd h (by simp)
            split at h
            · exact absurd h (by simp)
            split at h
            · exact absurd h (by simp)
            simp only [Except.ok.injEq, Prod.mk.injEq] at h
            exact h.2
          split at h
          · unfold decodeFields at h
            split at h
            · exact absurd h (by simp)
            split at h
            · exact absurd h (by simp)
            split at h
            · exact absurd h (by simp)
            simp only [Except.ok.injEq, Prod.mk.injEq] at h
            exact h.2
          exact absurd h (by simp)
        subst hr
        subst hrest0 hr2 hr1
        simp only [List.length_drop, not_or, not_lt] at hle hle2 hle3 hbounds ⊢
        omega
      · exact absurd h3 (by simp)
    · exact absurd h2 (by simp)
  · exact absurd h1 (by simp)

/-- Replay a WAL file (Wal::replay): returns the recovered records, the
statistics, and the file contents after any truncation. -/
def walReplay (file : List Nat) : List Record × ReplayStats × List Nat :=
  let res := replayGo file.length file [] 0 0
  (res.1, res.2.1, file.take res.2.2)

/-- Open a WAL (Wal::open): replay the file when it exists, else start empty. -/
def walOpen (existing : Option (List Nat)) : List Record × ReplayStats × List Nat :=
  match existing with
  | none => ([], ⟨0, 0, 0, 0⟩, [])
  | some f => walReplay f

/-- Random read from the WAL (Wal::read_at): seek to `off` and read exactly
`len` bytes; a short read surfaces as an io error. -/
def walReadAt (file : List Nat) (off len : Nat) : Except Error (List Nat) :=
  if off + len ≤ file.length then .ok ((file.drop off).take len)
  else .error .ioUnexpectedEof

/-! ## In-memory index (HashMap<Vec<u8>, ValuePos>), modelled as an
association list with unique keys -/

/-- Position of a value inside the WAL file. -/
structure ValuePos where
  offset : Nat
  len : Nat
deriving DecidableEq, Repr

/-- The index: key to value position, unique keys. -/
abbrev Index := List (List Nat × ValuePos)

/-- Insert or overwrite a key (HashMap::insert). -/
def mapInsert (k : List Nat) (p : ValuePos) (idx : Index) : Index :=
  (k, p) :: idx.filter (fun e => decide (e.1 ≠ k))

/-- Remove a key (HashMap::remove). -/
def mapRemove (k : List Nat) (idx : Index) : Index :=
  idx.filter (fun e => decide (e.1 ≠ k))

/-- Look up a key (HashMap::get). -/
def mapFind (k : List Nat) (idx : Index) : Option ValuePos :=
  (idx.find? (fun e => decide (e.1 = k))).map (·.2)

/-! ## Database facade (src/db.rs) -/

/-- The database: WAL file contents (the writer offset equals the file
length), the in-memory index, and the sync_on_write option (which has no
observable effect in the pure model). -/
structure Db where
  file : List Nat
  index : Index
  syncOnWrite : Bool

/-- Db::put: validate sizes, append the frame to the WAL, then insert the
value position `record_offset + frame_len - 4 - |value|` into the index.
On a validation error the state is returned unchanged. -/
def Db.put (db : Db) (key value : List Nat) : Except Error Unit × Db :=
  match Record.mkPut key value with
  | .error e => (.error e, db)
  | .ok record =>
    let recordOffset := db.file.length
    let encoded := record.encode
    let valueOffset := recordOffset + (encoded.length - 4 - value.length)
    (.ok (), { db with
      file := db.file ++ encoded,
      index := mapInsert key ⟨valueOffset, value.length⟩ db.index })

/-- Db::get: look up the index and random-read the value bytes from the WAL. -/
def Db.get (db : Db) (key : List Nat) : Except Error (Option (List Nat)) :=
  match mapFind key db.index with
  | some pos =>
    match walReadAt db.file pos.offset pos.len with
    | .ok v => .ok (some v)
    | .error e => .error e
  | none => .ok none

/-- Db::delete: validate the key size, append a tombstone frame, then remove
the key from the index. -/
def Db.delete (db : Db) (key : List Nat) : Except Error Unit × Db :=
  match Record.mkDelete key with
  | .error e => (.error e, db)
  | .ok record =>
    (.ok (), { db with
      file := db.file ++ record.encode,
      index := mapRemove key db.index })

/-- The loop of Db::rebuild_index: sequentially apply each record to the
index, tracking the running file offset by re-encoding each record. -/
def rebuildGo : List Record → Index → Nat → Index
  | [], idx, _ => idx
  | r :: rs, idx, offset =>
    match r.kind with
    | .put =>
      rebuildGo rs
        (mapInsert r.key
          ⟨offset + (r.encode.length - 4 - r.value.length), r.value.length⟩ idx)
        (offset + r.encode.length)
    | .delete =>
      rebuildGo rs (mapRemove r.key idx) (offset + r.encode.length)

/-- Db::rebuild_index: fold the replayed records into an empty index. -/
def rebuildIndex (records : List Record) : Index :=
  rebuildGo records [] 0

/-- Modelled from the spec: one step of the last-write-wins fold over
(index, cursor) — a Put sets its key to the value position computed from the
cumulative encoded frame lengths, a Delete removes its key. -/
def specStep (acc : Index × Nat) (r : Record) : Index × Nat :=
  let L := r.encode.length
  match r.kind with
  | .put =>
    (mapInsert r.key ⟨acc.2 + L - 4 - r.value.length, r.value.length⟩ acc.1, acc.2 + L)
  | .delete => (mapRemove r.key acc.1, acc.2 + L)

/-- Modelled from the spec: the left fold of a record sequence over an empty
map, as the claim describes the reconstructed index. -/
def specIndex (records : List Record) : Index :=
  (records.foldl specStep ([], 0)).1

/-! ## Auxiliary notions for the claims -/

/-- A record within the hard size limits. -/
def inLimit (r : Record) : Prop :=
  r.key.length ≤ MAX_KEY_SIZE ∧ r.value.length ≤ MAX_VALUE_SIZE

instance (r : Record) : Decidable (inLimit r) := by
  unfold inLimit; infer_instance

/-- Concatenation of the frames of a record sequence. -/
def encodeAll : List Record → List Nat
  | [] => []
  | r :: rs => r.encode ++ encodeAll rs

/-- Flip bit `t` of a byte. -/
def flipByte (b t : Nat) : Nat := b ^^^ 2 ^ t

/-- Flip bit `i` of a byte string (bit `i % 8` of byte `i / 8`). -/
def flipBit (bs : List Nat) (i : Nat) : List Nat :=
  bs.set (i / 8) (flipByte (bs.getD (i / 8) 0) (i % 8))

/-- The five corruption errors named by the specification's single-bit
property. -/
def specAllowedError : Error → Bool
  | .crcMismatch _ _ => true
  | .invalidMagic _ _ => true
  | .unexpectedEof => true
  | .unsupportedVersion _ => true
  | .invalidRecordKind _ => true
  | _ => false

/-- The corruption errors decode can actually signal on a flipped frame: the
five from the specification plus the io-surfaced unexpected end of input. -/
def allowedCorruptionError (e : Error) : Bool :=
  specAllowedError e || decide (e = .ioUnexpectedEof)

/-! ## Basic facts about the byte-stream reader and decoder -/

/-- Characterisation of a successful `readExact`. -/
theorem readExact_eq_some {n : Nat} {input a b : List Nat} :
    readExact n input = some (a, b) ↔
      n ≤ input.length ∧ a = input.take n ∧ b = input.drop n := by
  unfold readExact
  split
  · simp only [Option.some.injEq, Prod.mk.injEq]
    constructor
    · rintro ⟨rfl, rfl⟩; exact ⟨by assumption, rfl, rfl⟩
    · rintro ⟨-, rfl, rfl⟩; exact ⟨rfl, rfl⟩
  · rename_i hlt
    constructor
    · intro h
      exact absurd h (by simp)
    · rintro ⟨h1, -, -⟩
      exact absurd h1 hlt

/-- Characterisation of a failing `readExact`. -/
theorem readExact_eq_none {n : Nat} {input : List Nat} :
    readExact n input = none ↔ input.length < n := by
  unfold readExact
  split <;> simp <;> omega

/-- A successful `decodeFields` returns its `rest` argument unchanged. -/
theorem decodeFields_rest {kind : RecordKind} {remaining rest : List Nat}
    {x : Option Record} {rest0 : List Nat}
    (h : decodeFields kind remaining rest = .ok (x, rest0)) : rest0 = rest := by
  unfold decodeFields at h
  split at h
  · exact absurd h (by simp)
  split at h
  · exact absurd h (by simp)
  split at h
  · exact absurd h (by simp)
  simp only [Except.ok.injEq, Prod.mk.injEq] at h
  exact h.2.symm

/-- A successful `decodeFrame` returns its `rest` argument unchanged. -/
theorem decodeFrame_rest {a b c : List Nat} {x : Option Record} {rest0 : List Nat}
    (h : decodeFrame a b c = .ok (x, rest0)) : rest0 = c := by
  unfold decodeFrame at h
  split at h
  · exact absurd h (by simp)
  split at h
  · exact absurd h (by simp)
  split at h
  · exact decodeFields_rest h
  split at h
  · exact decodeFields_rest h
  exact absurd h (by simp)

/-- Decoding a record consumes at least one byte (in fact a whole frame), so
replay terminates. -/
theorem decode_consumes {input : List Nat} {r : Record} {rest : List Nat}
    (h : Record.decode input = .ok (some r, rest)) : rest.length < input.length := by
  unfold Record.decode at h
  split at h
  · exact absurd h (by simp)
  rename_i magic r1 h1
  rw [readExact_eq_some] at h1
  obtain ⟨hlen1, -, hr1⟩ := h1
  split at h
  · exact absurd h (by simp)
  split at h
  · exact absurd h (by simp)
  rename_i recLenBytes r2 h2
  rw [readExact_eq_some] at h2
  obtain ⟨hlen2, -, hr2⟩ := h2
  split at h
  · exact absurd h (by simp)
  rename_i hbounds
  split at h
  · exact absurd h (by simp)
  rename_i remaining rest0 h3
  rw [readExact_eq_some] at h3
  obtain ⟨hlen3, -, hrest0⟩ := h3
  have hr := decodeFrame_rest h
  subst hr hrest0 hr2 hr1
  simp only [List.length_drop, not_or, not_lt] at hlen1 hlen2 hlen3 hbounds ⊢
  omega

/-! ## Arithmetic and length facts -/

/-- A 4-byte little-endian encoding has length 4. -/
theorem toLE4_length (n : Nat) : (toLE4 n).length = 4 := rfl

/-- Reading back a little-endian u32 is the identity below 2^32. -/
theorem fromLE4_toLE4 {n : Nat} (h : n < 4294967296) : fromLE4 (toLE4 n) = n := by
  have heq : fromLE4 (toLE4 n) =
      n % 256 + 256 * (n / 256 % 256) + 65536 * (n / 65536 % 256) +
        16777216 * (n / 16777216 % 256) := rfl
  rw [heq]
  omega

/-- A bit list of length w denotes a number below 2^w. -/
theorem natOfBits_lt (l : List Bool) : natOfBits l < 2 ^ l.length := by
  induction l with
  | nil => simp [natOfBits]
  | cons b t ih =>
    simp only [natOfBits, List.length_cons, pow_succ]
    cases b <;> simp <;> omega

/-- The CRC polynomial has 32 bits. -/
theorem polyBits_length : polyBits.length = 32 := rfl

/-- One CRC step preserves the 32-bit state width. -/
theorem crcStep_length {s : List Bool} (h : s.length = 32) (b : Bool) :
    (crcStep s b).length = 32 := by
  unfold crcStep
  split
  · simp only [zxor, List.length_zipWith, List.length_append, List.length_drop,
      polyBits_length, List.length_singleton]
    omega
  · simp only [List.length_append, List.length_drop, List.length_singleton]
    omega

/-- Running the CRC preserves the 32-bit state width. -/
theorem crcRun_length (m : List Bool) : ∀ {s : List Bool}, s.length = 32 →
    (crcRun m s).length = 32 := by
  induction m with
  | nil => intro s h; exact h
  | cons b t ih => intro s h; exact ih (crcStep_length h b)

/-- CRC-32 checksums fit in 32 bits. -/
theorem crc32_lt (bytes : List Nat) : crc32 bytes < 4294967296 := by
  unfold crc32
  have h1 := natOfBits_lt ((crcRun (bytesBits bytes) (List.replicate 32 true)).map Bool.not)
  rw [List.length_map, crcRun_length _ (by simp)] at h1
  exact lt_of_lt_of_eq h1 (by norm_num)

/-- Reading exactly the length of a leading block returns that block. -/
theorem readExact_append (n : Nat) (a b : List Nat) (h : a.length = n) :
    readExact n (a ++ b) = some (a, b) := by
  unfold readExact
  rw [if_pos (by simp [List.length_append]; omega), List.take_left' h,
    List.drop_left' h]

/-- The frame of a record, fully right-associated. -/
theorem encode_eq (r : Record) :
    r.encode = MAGIC ++ (toLE4 (HEADER_SIZE + r.key.length + r.value.length + 4) ++
      (VERSION :: r.kind.toByte :: (toLE4 r.key.length ++ (toLE4 r.value.length ++
        (r.key ++ (r.value ++ toLE4 (crc32 (toLE4 (HEADER_SIZE + r.key.length +
          r.value.length + 4) ++ (VERSION :: r.kind.toByte ::
            (toLE4 r.key.length ++ (toLE4 r.value.length ++
              (r.key ++ r.value)))))))))))) := by
  simp [Record.encode, List.append_assoc]

/-- Length of an encoded frame. -/
theorem encode_length (r : Record) :
    r.encode.length = HEADER_SIZE + r.key.length + r.value.length + 4 := by
  simp [Record.encode, MAGIC, toLE4, HEADER_SIZE]
  omega

/-! ## Decoding an encoded frame recovers the record -/

/-- Stage three of decoding an encoded frame: field extraction succeeds and
returns the original key and value. -/
theorem decodeFields_encode (kind : RecordKind) (b0 b1 : Nat) (key val crcB : List Nat)
    (hk : key.length ≤ MAX_KEY_SIZE) (hv : val.length ≤ MAX_VALUE_SIZE)
    (hc : crcB.length = 4) (rest : List Nat) :
    decodeFields kind
      (b0 :: b1 :: (toLE4 key.length ++ (toLE4 val.length ++ (key ++ (val ++ crcB)))))
      rest = .ok (some ⟨kind, key, val⟩, rest) := by
  have h2 : (b0 :: b1 :: (toLE4 key.length ++ (toLE4 val.length ++
      (key ++ (val ++ crcB))))).drop 2 =
      toLE4 key.length ++ (toLE4 val.length ++ (key ++ (val ++ crcB))) := rfl
  have h6 : (b0 :: b1 :: (toLE4 key.length ++ (toLE4 val.length ++
      (key ++ (val ++ crcB))))).drop 6 =
      toLE4 val.length ++ (key ++ (val ++ crcB)) := by
    simp [toLE4]
  have h10 : (b0 :: b1 :: (toLE4 key.length ++ (toLE4 val.length ++
      (key ++ (val ++ crcB))))).drop 10 = key ++ (val ++ crcB) := by
    simp [toLE4]
  have hlen : (b0 :: b1 :: (toLE4 key.length ++ (toLE4 val.length ++
      (key ++ (val ++ crcB))))).length = 14 + key.length + val.length := by
    simp [toLE4]
    omega
  have hkey32 : key.length < 4294967296 := by
    have : MAX_KEY_SIZE = 1024 := rfl
    omega
  have hval32 : val.length < 4294967296 := by
    have : MAX_VALUE_SIZE = 1048576 := rfl
    omega
  unfold decodeFields
  rw [h2, h6, h10, hlen, List.take_left' (toLE4_length _),
    List.take_left' (toLE4_length _), fromLE4_toLE4 hkey32, fromLE4_toLE4 hval32]
  rw [if_neg (not_lt.mpr hk), if_neg (not_lt.mpr hv), if_neg (by omega)]
  have hdd : (b0 :: b1 :: (toLE4 key.length ++ (toLE4 val.length ++
      (key ++ (val ++ crcB))))).drop (10 + key.length) =
      ((b0 :: b1 :: (toLE4 key.length ++ (toLE4 val.length ++
        (key ++ (val ++ crcB))))).drop 10).drop key.length := by
    rw [List.drop_drop, Nat.add_comm]
  rw [hdd, h10, List.take_left, List.drop_left, List.take_left]

/-- Regrouping of four nested appends, used to isolate a trailing block. -/
theorem append_group4 (t u x y z : List Nat) :
    t ++ (u ++ (x ++ (y ++ z))) = (t ++ (u ++ (x ++ y))) ++ z := by
  simp [List.append_assoc]

/-- Stage two of decoding a frame whose stored CRC is correct: the CRC,
version and kind checks pass and decoding proceeds to field extraction. -/
theorem decodeFrame_pass (recLenBytes : List Nat) (kb : Nat) (mid C rest : List Nat)
    (hC : C.length = 4)
    (hcrc : fromLE4 C = crc32 (recLenBytes ++ (VERSION :: kb :: mid)))
    (hkb : kb = KIND_PUT ∨ kb = KIND_DELETE) :
    decodeFrame recLenBytes (VERSION :: kb :: (mid ++ C)) rest =
      decodeFields (if kb = KIND_PUT then .put else .delete)
        (VERSION :: kb :: (mid ++ C)) rest := by
  have hsplit : VERSION :: kb :: (mid ++ C) = (VERSION :: kb :: mid) ++ C := by
    simp
  have hidx : (VERSION :: kb :: (mid ++ C)).length - 4 =
      (VERSION :: kb :: mid).length := by
    simp [hC]
  have hdropC : (VERSION :: kb :: (mid ++ C)).drop
      ((VERSION :: kb :: (mid ++ C)).length - 4) = C := by
    rw [hidx, hsplit, List.drop_left]
  have htakeP : (VERSION :: kb :: (mid ++ C)).take
      ((VERSION :: kb :: (mid ++ C)).length - 4) = VERSION :: kb :: mid := by
    rw [hidx, hsplit, List.take_left]
  unfold decodeFrame
  rw [hdropC, htakeP, hcrc]
  rw [if_neg (by simp)]
  have hg0 : (VERSION :: kb :: (mid ++ C)).getD 0 0 = VERSION := rfl
  have hg1 : (VERSION :: kb :: (mid ++ C)).getD 1 0 = kb := rfl
  rw [hg0, hg1, if_neg (by simp)]
  rcases hkb with rfl | rfl
  · rw [if_pos rfl, if_pos rfl]
  · rw [if_neg (by decide), if_pos rfl, if_neg (by decide)]

/-- Decoding an encoded in-limit record from the front of a stream succeeds,
returns the record, and consumes exactly the frame. -/
theorem decode_encode (r : Record) (hk : r.key.length ≤ MAX_KEY_SIZE)
    (hv : r.value.length ≤ MAX_VALUE_SIZE) (rest : List Nat) :
    Record.decode (r.encode ++ rest) = .ok (some r, rest) := by
  obtain ⟨kind, key, val⟩ := r
  rw [encode_eq]
  dsimp only
  simp only at hk hv
  have hL32 : HEADER_SIZE + key.length + val.length + 4 < 4294967296 := by
    have h1 : HEADER_SIZE = 18 := rfl
    have h2 : MAX_KEY_SIZE = 1024 := rfl
    have h3 : MAX_VALUE_SIZE = 1048576 := rfl
    omega
  unfold Record.decode
  rw [List.append_assoc, readExact_append 4 MAGIC _ rfl]
  dsimp only
  rw [if_neg (by simp)]
  rw [List.append_assoc, readExact_append 4 (toLE4 _) _ (toLE4_length _)]
  dsimp only
  rw [fromLE4_toLE4 hL32]
  rw [if_neg (by
    have h1 : HEADER_SIZE = 18 := rfl
    have h2 : MAX_KEY_SIZE = 1024 := rfl
    have h3 : MAX_VALUE_SIZE = 1048576 := rfl
    have h4 : MAX_RECORD_SIZE = 2097152 := rfl
    omega)]
  rw [readExact_append _ _ rest (by
    simp [toLE4]
    have h1 : HEADER_SIZE = 18 := rfl
    omega)]
  dsimp only
  rw [append_group4 (toLE4 key.length) (toLE4 val.length) key val]
  rw [decodeFrame_pass _ _ _ _ rest (toLE4_length _)
    (fromLE4_toLE4 (crc32_lt _)) (by cases kind <;> simp [RecordKind.toByte])]
  rw [← append_group4 (toLE4 key.length) (toLE4 val.length) key val]
  cases kind with
  | put =>
    rw [if_pos (show RecordKind.put.toByte = KIND_PUT from rfl)]
    exact decodeFields_encode _ _ _ _ _ _ hk hv (toLE4_length _) rest
  | delete =>
    rw [if_neg (show ¬RecordKind.delete.toByte = KIND_PUT from by decide)]
    exact decodeFields_encode _ _ _ _ _ _ hk hv (toLE4_length _) rest

/-! ## Index lemmas -/

/-- Looking up a freshly inserted key returns its position. -/
theorem mapFind_insert (k : List Nat) (p : ValuePos) (idx : Index) :
    mapFind k (mapInsert k p idx) = some p := by
  simp [mapFind, mapInsert, List.find?]

/-- Looking up a removed key fails. -/
theorem mapFind_remove (k : List Nat) (idx : Index) :
    mapFind k (mapRemove k idx) = none := by
  unfold mapFind mapRemove
  induction idx with
  | nil => simp
  | cons e t ih =>
    by_cases he : e.1 = k
    · simp [he]
    · simp only [List.filter, he]
      simp [List.find?, he]

/-! ## The value bytes sit at frame offset `frame_len - 4 - |value|` -/

/-- Slicing an encoded frame at the value offset recovers the value bytes. -/
theorem encode_value_slice (r : Record) :
    ((r.encode).drop (r.encode.length - 4 - r.value.length)).take r.value.length
      = r.value := by
  obtain ⟨kind, key, val⟩ := r
  have hoff : (Record.encode ⟨kind, key, val⟩).length - 4 -
      (Record.mk kind key val).value.length = 18 + key.length := by
    rw [encode_length]
    have h1 : HEADER_SIZE = 18 := rfl
    simp only
    omega
  rw [hoff, encode_eq]
  dsimp only
  have hre : MAGIC ++ (toLE4 (HEADER_SIZE + key.length + val.length + 4) ++
      (VERSION :: RecordKind.toByte kind :: (toLE4 key.length ++ (toLE4 val.length ++
        (key ++ (val ++ toLE4 (crc32 (toLE4 (HEADER_SIZE + key.length + val.length + 4) ++
          (VERSION :: RecordKind.toByte kind :: (toLE4 key.length ++ (toLE4 val.length ++
            (key ++ val)))))))))))) =
      (MAGIC ++ (toLE4 (HEADER_SIZE + key.length + val.length + 4) ++
        (VERSION :: RecordKind.toByte kind :: (toLE4 key.length ++ (toLE4 val.length ++
          key))))) ++
      (val ++ toLE4 (crc32 (toLE4 (HEADER_SIZE + key.length + val.length + 4) ++
        (VERSION :: RecordKind.toByte kind :: (toLE4 key.length ++ (toLE4 val.length ++
          (key ++ val))))))) := by
    simp [List.append_assoc]
  rw [hre, List.drop_left' (by simp [MAGIC, toLE4]; omega), List.take_left]

/-! ## Claim C1: read-your-writes -/

/-- C1. Within a session, for any key of at most 1024 bytes and value of at
most 2^20 bytes, `put k v` succeeds and a following `get k` returns exactly
`v` (the stored value offset `record_offset + frame_len - 4 - |v|` locates
the value bytes in the WAL, so `read_at` returns them); `delete k` succeeds
and a following `get k` returns none. -/
theorem claim_c1_read_your_writes (db : Db) (k v : List Nat)
    (hk : k.length ≤ 1024) (hv : v.length ≤ 1048576) :
    (db.put k v).1 = .ok () ∧ ((db.put k v).2.get k = .ok (some v)) ∧
    (db.delete k).1 = .ok () ∧ ((db.delete k).2.get k = .ok none) := by
  have hmk : Record.mkPut k v = .ok ⟨.put, k, v⟩ := by
    unfold Record.mkPut
    rw [if_neg (show ¬k.length > MAX_KEY_SIZE from not_lt.mpr hk),
      if_neg (show ¬v.length > MAX_VALUE_SIZE from not_lt.mpr hv)]
  have hmd : Record.mkDelete k = .ok ⟨.delete, k, []⟩ := by
    unfold Record.mkDelete
    rw [if_neg (show ¬k.length > MAX_KEY_SIZE from not_lt.mpr hk)]
  refine ⟨?_, ?_, ?_, ?_⟩
  · unfold Db.put
    rw [hmk]
  · unfold Db.put
    rw [hmk]
    dsimp only
    unfold Db.get
    dsimp only
    rw [mapFind_insert]
    dsimp only
    unfold walReadAt
    rw [if_pos (by
      rw [List.length_append, encode_length]
      have h1 : HEADER_SIZE = 18 := rfl
      dsimp only
      omega)]
    dsimp only
    rw [List.drop_append]
    have h := encode_value_slice ⟨.put, k, v⟩
    dsimp only at h
    rw [h]
  · unfold Db.delete
    rw [hmd]
  · unfold Db.delete
    rw [hmd]
    dsimp only
    unfold Db.get
    dsimp only
    rw [mapFind_remove]

/-- Witness for C1 at a concrete database and key/value pair. -/
theorem claim_c1_witness :
    ((Db.mk [] [] true).put [1] [2]).1 = .ok () ∧
    (((Db.mk [] [] true).put [1] [2]).2.get [1] = .ok (some [2])) ∧
    ((Db.mk [] [] true).delete [1]).1 = .ok () ∧
    (((Db.mk [] [] true).delete [1]).2.get [1] = .ok none) :=
  claim_c1_read_your_writes (Db.mk [] [] true) [1] [2] (by decide) (by decide)

/-! ## Claim C3: frame round-trip -/

/-- C3. Decoding the frame produced by encoding any in-limit record (value
empty for Delete) succeeds, returns an equal record, and consumes exactly
the encoded buffer. -/
theorem claim_c3_roundtrip (r : Record) (hk : r.key.length ≤ 1024)
    (hv : r.value.length ≤ 1048576) ( _hd : r.kind = .delete → r.value = []) :
    Record.decode r.encode = .ok (some r, []) := by
  have h := decode_encode r hk hv []
  simpa using h

/-- Witness for C3 at a concrete record. -/
theorem claim_c3_witness :
    Record.decode (Record.encode ⟨.put, [104, 105], [119]⟩) =
      .ok (some ⟨.put, [104, 105], [119]⟩, []) :=
  claim_c3_roundtrip ⟨.put, [104, 105], [119]⟩ (by decide) (by decide) (by simp)

/-! ## Claim C5: behaviour at a short tail -/

/-- C5 counterexample: with exactly one byte remaining, decode does not fail
with `UnexpectedEof` as the claim states; it returns "no more records". -/
theorem claim_c5_counterexample :
    Record.decode [75] = .ok (none, []) ∧
      Record.decode [75] ≠ .error .unexpectedEof := by
  constructor
  · rfl
  · intro hcon
    have h : Record.decode [75] = .ok (none, []) := rfl
    rw [h] at hcon
    exact Except.noConfusion hcon

/-- With fewer than 4 bytes of input the decoder reports a clean end. -/
theorem decode_short_eof (input : List Nat) (h : input.length < 4) :
    Record.decode input = .ok (none, []) := by
  unfold Record.decode
  rw [readExact_eq_none.mpr h]

/-- C5 (amended). When fewer than 4 bytes remain — zero or between 1 and 3 —
decode treats the end of input as a clean frame boundary and returns "no
more records" rather than an error. -/
theorem claim_c5_short_input (input : List Nat) (h : input.length < 4) :
    Record.decode input = .ok (none, []) :=
  decode_short_eof input h

/-- Witness for the amended C5 at a concrete two-byte tail. -/
theorem claim_c5_witness : Record.decode [75, 86] = .ok (none, []) :=
  claim_c5_short_input [75, 86] (by decide)

/-! ## Claim C8: size limits are enforced before any state change -/

/-- C8. An oversized key or value is rejected with `KeyTooLarge` or
`ValueTooLarge` respectively and the database state (index and WAL contents)
is returned unchanged. -/
theorem claim_c8_size_limits (db : Db) (k v : List Nat) :
    (k.length > 1024 →
      db.put k v = (.error (.keyTooLarge k.length 1024), db)) ∧
    (k.length ≤ 1024 → v.length > 1048576 →
      db.put k v = (.error (.valueTooLarge v.length 1048576), db)) ∧
    (k.length > 1024 →
      db.delete k = (.error (.keyTooLarge k.length 1024), db)) := by
  refine ⟨?_, ?_, ?_⟩
  · intro hk
    unfold Db.put Record.mkPut
    rw [if_pos (show k.length > MAX_KEY_SIZE from hk)]
    rfl
  · intro hk hv
    unfold Db.put Record.mkPut
    rw [if_neg (show ¬k.length > MAX_KEY_SIZE from not_lt.mpr hk),
      if_pos (show v.length > MAX_VALUE_SIZE from hv)]
    rfl
  · intro hk
    unfold Db.delete Record.mkDelete
    rw [if_pos (show k.length > MAX_KEY_SIZE from hk)]
    rfl

/-- Witness for C8: a 1025-byte key and a 1048577-byte value are rejected
with the state unchanged. -/
theorem claim_c8_witness :
    (Db.mk [] [] true).put (List.replicate 1025 0) [] =
      (.error (.keyTooLarge 1025 1024), Db.mk [] [] true) ∧
    (Db.mk [] [] true).put [] (List.replicate 1048577 0) =
      (.error (.valueTooLarge 1048577 1048576), Db.mk [] [] true) ∧
    (Db.mk [] [] true).delete (List.replicate 1025 0) =
      (.error (.keyTooLarge 1025 1024), Db.mk [] [] true) := by
  refine ⟨?_, ?_, ?_⟩
  · have h := (claim_c8_size_limits (Db.mk [] [] true) (List.replicate 1025 0) []).1
      (by rw [List.length_replicate]; norm_num)
    rw [List.length_replicate] at h
    exact h
  · have h := (claim_c8_size_limits (Db.mk [] [] true) [] (List.replicate 1048577 0)).2.1
      (by norm_num) (by rw [List.length_replicate]; norm_num)
    rw [List.length_replicate] at h
    exact h
  · have h := (claim_c8_size_limits (Db.mk [] [] true) (List.replicate 1025 0) []).2.2
      (by rw [List.length_replicate]; norm_num)
    rw [List.length_replicate] at h
    exact h

/-! ## Claim C9: decode does not require a Delete frame to carry an empty
value -/

set_option maxRecDepth 40000 in
/-- C9. A well-formed frame with kind byte 2 (Delete), `val_len = 1`,
consistent lengths and a correct CRC is accepted by decode, which returns a
Delete record with a non-empty value. -/
theorem claim_c9_delete_value_not_enforced :
    Record.decode (MAGIC ++ toLE4 23 ++ [1, 2] ++ toLE4 0 ++ toLE4 1 ++ [65] ++
        toLE4 (crc32 (toLE4 23 ++ [1, 2] ++ toLE4 0 ++ toLE4 1 ++ [65]))) =
      .ok (some ⟨.delete, [], [65]⟩, []) ∧ ([65] : List Nat) ≠ [] := by
  constructor
  · rfl
  · decide

/-! ## Claim C4: index rebuild is the last-write-wins fold -/

/-- The rebuild loop computes the same index as the specification's left
fold over (index, cursor) pairs, from any starting accumulator. -/
theorem rebuildGo_eq_foldl (records : List Record) :
    ∀ (idx : Index) (off : Nat),
      rebuildGo records idx off = (records.foldl specStep (idx, off)).1 := by
  induction records with
  | nil => intro idx off; rfl
  | cons r rs ih =>
    intro idx off
    rw [List.foldl_cons]
    have harith : off + (r.encode.length - 4 - r.value.length) =
        off + r.encode.length - 4 - r.value.length := by
      have := encode_length r
      have h1 : HEADER_SIZE = 18 := rfl
      omega
    cases hr : r.kind with
    | put =>
      rw [show specStep (idx, off) r =
          (mapInsert r.key ⟨off + r.encode.length - 4 - r.value.length,
            r.value.length⟩ idx, off + r.encode.length) from by
        unfold specStep
        rw [hr]]
      rw [show rebuildGo (r :: rs) idx off =
          rebuildGo rs (mapInsert r.key
            ⟨off + (r.encode.length - 4 - r.value.length), r.value.length⟩ idx)
            (off + r.encode.length) from by
        rw [rebuildGo]
        rw [hr]]
      rw [ih, harith]
    | delete =>
      rw [show specStep (idx, off) r =
          (mapRemove r.key idx, off + r.encode.length) from by
        unfold specStep
        rw [hr]]
      rw [show rebuildGo (r :: rs) idx off =
          rebuildGo rs (mapRemove r.key idx) (off + r.encode.length) from by
        rw [rebuildGo]
        rw [hr]]
      rw [ih]

/-- Keys of an index. -/
theorem keys_nodup_insert {idx : Index} (k : List Nat) (p : ValuePos)
    (h : (idx.map Prod.fst).Nodup) :
    ((mapInsert k p idx).map Prod.fst).Nodup := by
  unfold mapInsert
  rw [List.map_cons]
  refine List.Nodup.cons ?_ (h.sublist (List.Sublist.map _ (List.filter_sublist idx)))
  intro hmem
  rw [List.mem_map] at hmem
  obtain ⟨e, he, hek⟩ := hmem
  rw [List.mem_filter] at he
  exact absurd hek (by simpa using he.2)

/-- Removal preserves distinctness of keys. -/
theorem keys_nodup_remove {idx : Index} (k : List Nat)
    (h : (idx.map Prod.fst).Nodup) :
    ((mapRemove k idx).map Prod.fst).Nodup :=
  h.sublist (List.Sublist.map _ (List.filter_sublist idx))

/-- The rebuild loop preserves distinctness of keys. -/
theorem rebuildGo_nodup (records : List Record) :
    ∀ (idx : Index) (off : Nat), (idx.map Prod.fst).Nodup →
      ((rebuildGo records idx off).map Prod.fst).Nodup := by
  induction records with
  | nil => intro idx off h; exact h
  | cons r rs ih =>
    intro idx off h
    cases hr : r.kind with
    | put =>
      rw [show rebuildGo (r :: rs) idx off =
          rebuildGo rs (mapInsert r.key
            ⟨off + (r.encode.length - 4 - r.value.length), r.value.length⟩ idx)
            (off + r.encode.length) from by
        rw [rebuildGo]
        rw [hr]]
      exact ih _ _ (keys_nodup_insert _ _ h)
    | delete =>
      rw [show rebuildGo (r :: rs) idx off =
          rebuildGo rs (mapRemove r.key idx) (off + r.encode.length) from by
        rw [rebuildGo]
        rw [hr]]
      exact ih _ _ (keys_nodup_remove _ h)

/-- C4. The index reconstructed by rebuild_index from a replayed record
sequence equals the left fold of the sequence over the empty map in which
each Put sets its key to the value position computed from the cumulative
encoded frame lengths and each Delete removes its key; the keys of the
result are pairwise distinct. -/
theorem claim_c4_rebuild_is_fold (records : List Record) :
    rebuildIndex records = specIndex records ∧
      ((rebuildIndex records).map Prod.fst).Nodup := by
  constructor
  · unfold rebuildIndex specIndex
    exact rebuildGo_eq_foldl records [] 0
  · exact rebuildGo_nodup records [] 0 (by simp)

/-! ## Claim C10: replay statistics invariant -/

/-- One successful decode advances the replay loop by one record. -/
theorem replayGo_step (fileLen : Nat) (input : List Nat) (recs : List Record)
    (t v : Nat) (r : Record) (rest : List Nat)
    (h : Record.decode input = .ok (some r, rest)) :
    replayGo fileLen input recs t v =
      replayGo fileLen rest (recs ++ [r]) (t + 1) (v + 1) := by
  rw [replayGo]
  split
  · rename_i r1 rest1 heq
    rw [h] at heq
    simp only [Except.ok.injEq, Prod.mk.injEq, Option.some.injEq] at heq
    rw [heq.1, heq.2]
  · rename_i heq
    rw [h] at heq
    simp at heq
  · rename_i heq
    rw [h] at heq
    exact Except.noConfusion heq

/-- A clean end of input stops the replay loop without truncation. -/
theorem replayGo_done (fileLen : Nat) (input : List Nat) (recs : List Record)
    (t v : Nat) (h : Record.decode input = .ok (none, [])) :
    replayGo fileLen input recs t v = (recs, ⟨t, v, 0, 0⟩, fileLen) := by
  rw [replayGo]
  split
  · rename_i r1 rest1 heq
    rw [h] at heq
    simp at heq
  · rfl
  · rename_i heq
    rw [h] at heq
    exact Except.noConfusion heq

/-- A decode error stops the replay loop, counting one corrupted record and
truncating to the last valid offset. -/
theorem replayGo_err (fileLen : Nat) (input : List Nat) (recs : List Record)
    (t v : Nat) (e : Error) (h : Record.decode input = .error e) :
    replayGo fileLen input recs t v =
      (recs, ⟨t + 1, v, 1, fileLen - (fileLen - input.length)⟩,
        fileLen - input.length) := by
  rw [replayGo]
  split
  · rename_i r1 rest1 heq
    rw [h] at heq
    exact Except.noConfusion heq
  · rename_i heq
    rw [h] at heq
    exact Except.noConfusion heq
  · rfl

/-- The replay loop started with matching accumulators maintains the
statistics invariant: total = valid + corrupted, at most one corrupted
record, valid equals the number of returned records, and a positive
truncation count implies a corrupted record. -/
theorem replayGo_stats_inv (fileLen : Nat) (N : Nat) :
    ∀ (input : List Nat), input.length ≤ N →
    ∀ (recs : List Record) (n : Nat), recs.length = n →
      (replayGo fileLen input recs n n).2.1.total_records =
        (replayGo fileLen input recs n n).2.1.valid_records +
          (replayGo fileLen input recs n n).2.1.corrupted_records ∧
      (replayGo fileLen input recs n n).2.1.corrupted_records ≤ 1 ∧
      (replayGo fileLen input recs n n).2.1.valid_records =
        (replayGo fileLen input recs n n).1.length ∧
      (0 < (replayGo fileLen input recs n n).2.1.truncated_bytes →
        (replayGo fileLen input recs n n).2.1.corrupted_records = 1) := by
  induction N with
  | zero =>
    intro input hlen recs n hrecs
    rw [replayGo]
    split
    · rename_i r rest heq
      have := decode_consumes heq
      omega
    · dsimp only
      exact ⟨by omega, by omega, by simp [hrecs], by simp⟩
    · dsimp only
      exact ⟨by omega, by omega, by simp [hrecs], fun _ => rfl⟩
  | succ N ih =>
    intro input hlen recs n hrecs
    rw [replayGo]
    split
    · rename_i r rest heq
      exact ih rest (by have := decode_consumes heq; omega) (recs ++ [r]) (n + 1)
        (by simp [hrecs])
    · dsimp only
      exact ⟨by omega, by omega, by simp [hrecs], by simp⟩
    · dsimp only
      exact ⟨by omega, by omega, by simp [hrecs], fun _ => rfl⟩

/-- C10. After every `Wal::open`, the replay statistics satisfy
`total_records = valid_records + corrupted_records`,
`corrupted_records ≤ 1` (replay stops at the first decode error),
`valid_records` equals the number of records returned, and
`truncated_bytes > 0` implies `corrupted_records = 1`. -/
theorem claim_c10_replay_stats (existing : Option (List Nat)) :
    (walOpen existing).2.1.total_records =
      (walOpen existing).2.1.valid_records +
        (walOpen existing).2.1.corrupted_records ∧
    (walOpen existing).2.1.corrupted_records ≤ 1 ∧
    (walOpen existing).2.1.valid_records = (walOpen existing).1.length ∧
    (0 < (walOpen existing).2.1.truncated_bytes →
      (walOpen existing).2.1.corrupted_records = 1) := by
  cases existing with
  | none => exact ⟨rfl, by decide, rfl, fun h => absurd h (by decide)⟩
  | some f =>
    unfold walOpen walReplay
    dsimp only
    exact replayGo_stats_inv f.length f.length f (le_refl _) [] 0 rfl

/-- Witness for C10 at a concrete corrupt file (a bare magic with no body):
replay records one corrupted record and truncates four bytes. -/
theorem claim_c10_witness :
    (walOpen (some [75, 86, 83, 76])).2.1.total_records =
      (walOpen (some [75, 86, 83, 76])).2.1.valid_records +
        (walOpen (some [75, 86, 83, 76])).2.1.corrupted_records ∧
    (walOpen (some [75, 86, 83, 76])).2.1.corrupted_records ≤ 1 ∧
    (walOpen (some [75, 86, 83, 76])).2.1.valid_records =
      (walOpen (some [75, 86, 83, 76])).1.length ∧
    (0 < (walOpen (some [75, 86, 83, 76])).2.1.truncated_bytes →
      (walOpen (some [75, 86, 83, 76])).2.1.corrupted_records = 1) :=
  claim_c10_replay_stats (some [75, 86, 83, 76])

/-! ## Claim C2: truncation correctness of replay -/

/-- Replay consumes a prefix of in-limit frames one record at a time,
whatever the accumulators. -/
theorem replayGo_frames (fileLen : Nat) (P : List Record) :
    (∀ r ∈ P, inLimit r) →
    ∀ (S : List Nat) (recs : List Record) (t v : Nat),
      replayGo fileLen (encodeAll P ++ S) recs t v =
        replayGo fileLen S (recs ++ P) (t + P.length) (v + P.length) := by
  induction P with
  | nil =>
    intro _ S recs t v
    simp [encodeAll]
  | cons r rs ih =>
    intro hP S recs t v
    have hr : inLimit r := hP r (List.mem_cons_self r rs)
    rw [show encodeAll (r :: rs) ++ S = r.encode ++ (encodeAll rs ++ S) from by
      rw [encodeAll]
      simp [List.append_assoc]]
    rw [replayGo_step fileLen _ recs t v r (encodeAll rs ++ S)
      (decode_encode r hr.1 hr.2 (encodeAll rs ++ S))]
    rw [ih (fun x hx => hP x (List.mem_cons_of_mem r hx)) S (recs ++ [r]) (t + 1) (v + 1)]
    have h1 : (recs ++ [r]) ++ rs = recs ++ (r :: rs) := by simp
    have h2 : t + 1 + rs.length = t + (r :: rs).length := by
      simp only [List.length_cons]
      omega
    have h3 : v + 1 + rs.length = v + (r :: rs).length := by
      simp only [List.length_cons]
      omega
    rw [h1, h2, h3]

/-- C2 (amended). Replaying a WAL consisting of a valid prefix `P` of whole
in-limit frames followed by a suffix `S` returns exactly the records of `P`
in all three decisive cases, and handles the file as follows: when `S` is
empty the file is left equal to `P` with clean statistics; when decoding at
the start of `S` fails, the whole suffix is truncated, leaving exactly `P`;
when `S` is a partial tail of 1 to 3 bytes, the decoder treats it as clean
EOF, so the records of `P` are returned but the tail is left in place
untruncated. -/
theorem claim_c2_truncation (P : List Record) (S : List Nat)
    (hP : ∀ r ∈ P, inLimit r) :
    (S = [] → walReplay (encodeAll P ++ S) =
      (P, ⟨P.length, P.length, 0, 0⟩, encodeAll P)) ∧
    ((∃ e, Record.decode S = .error e) → walReplay (encodeAll P ++ S) =
      (P, ⟨P.length + 1, P.length, 1, S.length⟩, encodeAll P)) ∧
    (1 ≤ S.length → S.length ≤ 3 → walReplay (encodeAll P ++ S) =
      (P, ⟨P.length, P.length, 0, 0⟩, encodeAll P ++ S)) := by
  have hgo : replayGo (encodeAll P ++ S).length (encodeAll P ++ S) [] 0 0 =
      replayGo (encodeAll P ++ S).length S P P.length P.length := by
    rw [replayGo_frames (encodeAll P ++ S).length P hP S [] 0 0]
    simp
  refine ⟨?_, ?_, ?_⟩
  · intro hS
    subst hS
    unfold walReplay
    dsimp only
    rw [hgo, replayGo_done _ _ _ _ _ (decode_short_eof [] (by simp))]
    simp
  · rintro ⟨e, he⟩
    unfold walReplay
    dsimp only
    rw [hgo, replayGo_err _ _ _ _ _ e he]
    have hlen : (encodeAll P ++ S).length - S.length = (encodeAll P).length := by
      simp
    rw [hlen]
    dsimp only
    rw [List.take_left]
    have h4 : (encodeAll P ++ S).length - (encodeAll P).length = S.length := by
      simp
    rw [h4]
  · intro h1 h3
    unfold walReplay
    dsimp only
    rw [hgo, replayGo_done _ _ _ _ _ (decode_short_eof S (by omega))]
    simp

/-- Witness for C2: one concrete Put frame followed by four zero bytes; the
zero bytes fail the magic check and are truncated away. -/
theorem claim_c2_witness :
    walReplay (encodeAll [⟨.put, [], []⟩] ++ [0, 0, 0, 0]) =
      ([⟨.put, [], []⟩], ⟨2, 1, 1, 4⟩, encodeAll [⟨.put, [], []⟩]) := by
  have h := (claim_c2_truncation [⟨.put, [], []⟩] [0, 0, 0, 0]
    (by
      intro r hr
      rw [List.mem_singleton] at hr
      subst hr
      exact ⟨by norm_num [MAX_KEY_SIZE], by norm_num [MAX_VALUE_SIZE]⟩)).2.1
    ⟨.invalidMagic MAGIC [0, 0, 0, 0], by rfl⟩
  simpa using h

/-! ## Claim C6: handling of rec_len mismatches -/

/-- Reading exactly the whole input returns it with an empty remainder. -/
theorem readExact_exact (n : Nat) (l : List Nat) (h : l.length = n) :
    readExact n l = some (l, []) := by
  unfold readExact
  rw [if_pos (le_of_eq h.symm), ← h, List.take_length, List.drop_length]

/-- Field extraction rejects with `UnexpectedEof` when the payload area is
shorter than `key_len + val_len` (the "rec_len too small" direction). -/
theorem decodeFields_under (kind : RecordKind) (b0 b1 keyLen valLen : Nat)
    (mid C rest : List Nat) (hC : C.length = 4)
    (hkey : keyLen ≤ 1024) (hval : valLen ≤ 1048576)
    (hu : mid.length < keyLen + valLen) :
    decodeFields kind (b0 :: b1 :: ((toLE4 keyLen ++ (toLE4 valLen ++ mid)) ++ C))
      rest = .error .unexpectedEof := by
  unfold decodeFields
  have hassoc : (toLE4 keyLen ++ (toLE4 valLen ++ mid)) ++ C =
      toLE4 keyLen ++ ((toLE4 valLen ++ mid) ++ C) := by
    simp [List.append_assoc]
  rw [hassoc]
  have h2 : (b0 :: b1 :: (toLE4 keyLen ++ ((toLE4 valLen ++ mid) ++ C))).drop 2 =
      toLE4 keyLen ++ ((toLE4 valLen ++ mid) ++ C) := rfl
  rw [h2, List.take_left' (toLE4_length _), fromLE4_toLE4 (by omega)]
  have hassoc2 : (toLE4 valLen ++ mid) ++ C = toLE4 valLen ++ (mid ++ C) := by
    simp [List.append_assoc]
  rw [hassoc2]
  have h6 : (b0 :: b1 :: (toLE4 keyLen ++ (toLE4 valLen ++ (mid ++ C)))).drop 6 =
      toLE4 valLen ++ (mid ++ C) := by
    simp [toLE4]
  rw [h6, List.take_left' (toLE4_length _), fromLE4_toLE4 (by omega)]
  rw [if_neg (show ¬keyLen > MAX_KEY_SIZE from not_lt.mpr hkey),
    if_neg (show ¬valLen > MAX_VALUE_SIZE from not_lt.mpr hval)]
  have hlen : (b0 :: b1 :: (toLE4 keyLen ++ (toLE4 valLen ++ (mid ++ C)))).length - 4 =
      10 + mid.length := by
    simp [toLE4, hC]
    omega
  rw [hlen, if_pos (by omega)]

/-- C6 (amended). For every frame that passes the magic, rec_len bounds, CRC,
version, kind and size checks but whose rec_len is strictly LESS than
`18 + key_len + val_len + 4`, decode fails with `UnexpectedEof`. (A rec_len
strictly greater than `18 + key_len + val_len + 4` is instead accepted with
the slack bytes before the CRC ignored, as the counterexample shows.) -/
theorem claim_c6_rec_len_under_rejected (recLen kb keyLen valLen : Nat)
    (mid : List Nat) (hmid : recLen = 22 + mid.length)
    (hhigh : recLen ≤ 2097152) (hkb : kb = 1 ∨ kb = 2)
    (hkey : keyLen ≤ 1024) (hval : valLen ≤ 1048576)
    (hunder : recLen < 18 + keyLen + valLen + 4) :
    Record.decode (MAGIC ++ (toLE4 recLen ++ (VERSION :: kb ::
      ((toLE4 keyLen ++ (toLE4 valLen ++ mid)) ++
        toLE4 (crc32 (toLE4 recLen ++ (VERSION :: kb ::
          (toLE4 keyLen ++ (toLE4 valLen ++ mid))))))))) =
      .error .unexpectedEof := by
  unfold Record.decode
  rw [readExact_append 4 MAGIC _ rfl]
  dsimp only
  rw [if_neg (by simp)]
  rw [readExact_append 4 (toLE4 recLen) _ (toLE4_length _)]
  dsimp only
  rw [fromLE4_toLE4 (by omega)]
  rw [if_neg (by
    have h1 : HEADER_SIZE = 18 := rfl
    have h4 : MAX_RECORD_SIZE = 2097152 := rfl
    omega)]
  rw [readExact_exact _ _ (by simp [toLE4]; omega)]
  dsimp only
  rw [decodeFrame_pass (toLE4 recLen) kb (toLE4 keyLen ++ (toLE4 valLen ++ mid))
    (toLE4 (crc32 (toLE4 recLen ++ (VERSION :: kb ::
      (toLE4 keyLen ++ (toLE4 valLen ++ mid)))))) [] (toLE4_length _)
    (fromLE4_toLE4 (crc32_lt _)) hkb]
  exact decodeFields_under _ VERSION kb keyLen valLen mid _ [] (toLE4_length _)
    hkey hval (by omega)

/-- Witness for the amended C6: a frame claiming `rec_len = 25` with
`key_len = 5`, `val_len = 0` and only three payload bytes is rejected. -/
theorem claim_c6_witness :
    Record.decode (MAGIC ++ (toLE4 25 ++ (VERSION :: 1 ::
      ((toLE4 5 ++ (toLE4 0 ++ [9, 9, 9])) ++
        toLE4 (crc32 (toLE4 25 ++ (VERSION :: 1 ::
          (toLE4 5 ++ (toLE4 0 ++ [9, 9, 9]))))))))) =
      .error .unexpectedEof :=
  claim_c6_rec_len_under_rejected 25 1 5 0 [9, 9, 9] (by decide) (by decide)
    (Or.inl rfl) (by decide) (by decide) (by decide)

set_option maxRecDepth 40000 in
/-- C6 counterexample: a frame with `rec_len = 23` strictly greater than
`18 + key_len + val_len + 4 = 22` (one slack byte before the CRC) passes
every check and is accepted, contradicting the claim that all mismatches are
rejected. -/
theorem claim_c6_counterexample :
    Record.decode (MAGIC ++ toLE4 23 ++ [1, 1] ++ toLE4 0 ++ toLE4 0 ++ [0] ++
        toLE4 (crc32 (toLE4 23 ++ [1, 1] ++ toLE4 0 ++ toLE4 0 ++ [0]))) =
      .ok (some ⟨.put, [], []⟩, []) ∧ (23 : Nat) ≠ 18 + 0 + 0 + 4 := by
  exact ⟨rfl, by decide⟩

/-! ## CRC-32 detects every single-bit flip

The update is affine over GF(2): `crcRun` is linear in (state, message), the
difference vector of two messages differing in one bit is a unit vector, and
the run of a unit vector from the zero state is never zero because the
polynomial's top bit keeps the state nonzero. -/

/-- A vector xored with itself is zero. -/
theorem zxor_self (l : List Bool) : zxor l l = List.replicate l.length false := by
  induction l with
  | nil => rfl
  | cons b t ih =>
    unfold zxor at ih ⊢
    simp only [List.zipWith_cons_cons, Bool.xor_self, List.length_cons,
      List.replicate_succ]
    rw [ih]

/-- Zero is a left identity for pointwise xor. -/
theorem zxor_false_left (l : List Bool) :
    zxor (List.replicate l.length false) l = l := by
  induction l with
  | nil => rfl
  | cons b t ih =>
    unfold zxor at ih ⊢
    simp only [List.length_cons, List.replicate_succ, List.zipWith_cons_cons,
      Bool.false_xor]
    rw [ih]

/-- Pointwise xor is commutative. -/
theorem zxor_comm (a : List Bool) : ∀ (b : List Bool), zxor a b = zxor b a := by
  induction a with
  | nil => intro b; cases b <;> rfl
  | cons x t ih =>
    intro b
    cases b with
    | nil => rfl
    | cons y u =>
      unfold zxor at ih ⊢
      simp only [List.zipWith_cons_cons, Bool.xor_comm x y]
      rw [ih u]

/-- Pointwise xor is associative. -/
theorem zxor_assoc (a : List Bool) :
    ∀ (b c : List Bool), zxor (zxor a b) c = zxor a (zxor b c) := by
  induction a with
  | nil => intro b c; rfl
  | cons x t ih =>
    intro b c
    cases b with
    | nil => rfl
    | cons y u =>
      cases c with
      | nil => rfl
      | cons z v =>
        unfold zxor at ih ⊢
        simp only [List.zipWith_cons_cons, Bool.xor_assoc]
        rw [ih u v]

/-- Xoring the same vector on both sides cancels. -/
theorem zxor_cancel (x y p : List Bool) (h : p.length = y.length) :
    zxor (zxor x p) (zxor y p) = zxor x y := by
  rw [zxor_assoc]
  have hp : zxor p (zxor y p) = y := by
    rw [zxor_comm y p, ← zxor_assoc, zxor_self, h, zxor_false_left]
  rw [hp]

/-- Entrywise reading of a pointwise xor. -/
theorem zxor_getD (a : List Bool) : ∀ (b : List Bool) (i : Nat),
    i < a.length → i < b.length →
    (zxor a b).getD i false = Bool.xor (a.getD i false) (b.getD i false) := by
  induction a with
  | nil =>
    intro b i h1 _
    simp at h1
  | cons x t ih =>
    intro b i h1 h2
    cases b with
    | nil => simp at h2
    | cons y u =>
      cases i with
      | zero => rfl
      | succ i =>
        unfold zxor at ih ⊢
        simp only [List.zipWith_cons_cons, List.getD_cons_succ]
        exact ih u i (by simpa using h1) (by simpa using h2)

/-- Pointwise xor on cons cells. -/
theorem zxor_cons (a b : Bool) (t u : List Bool) :
    zxor (a :: t) (b :: u) = Bool.xor a b :: zxor t u := rfl

/-- The CRC step is linear over GF(2) in (state, bit). -/
theorem crcStep_zxor (s1 s2 : List Bool) (h1 : s1.length = 32)
    (h2 : s2.length = 32) (b1 b2 : Bool) :
    crcStep (zxor s1 s2) (Bool.xor b1 b2) =
      zxor (crcStep s1 b1) (crcStep s2 b2) := by
  cases s1 with
  | nil => simp at h1
  | cons a t1 =>
  cases s2 with
  | nil => simp at h2
  | cons c t2 =>
  have ht : t1.length = t2.length := by
    simp only [List.length_cons] at h1 h2
    omega
  have hl2 : (t2 ++ [false]).length = 32 := by
    simp only [List.length_cons] at h2
    simp
    omega
  rw [zxor_cons]
  unfold crcStep
  simp only [List.getD_cons_zero, List.drop_succ_cons, List.drop_zero]
  have hcond : Bool.xor (Bool.xor a c) (Bool.xor b1 b2) =
      Bool.xor (Bool.xor a b1) (Bool.xor c b2) := by
    cases a <;> cases c <;> cases b1 <;> cases b2 <;> rfl
  rw [hcond]
  have hshift : zxor t1 t2 ++ [false] = zxor (t1 ++ [false]) (t2 ++ [false]) := by
    unfold zxor
    rw [List.zipWith_append _ _ _ _ _ ht]
    rfl
  rw [hshift]
  cases hb1 : Bool.xor a b1 <;> cases hb2 : Bool.xor c b2
  · simp
  · simp only [Bool.xor_false, Bool.false_xor, if_true, if_false, Bool.xor_true]
    simp
    rw [zxor_assoc]
  · simp only [Bool.xor_false, Bool.false_xor, if_true, if_false, Bool.xor_true]
    simp
    rw [zxor_assoc, zxor_comm (t2 ++ [false]) polyBits, ← zxor_assoc]
  · simp only [Bool.xor_true, Bool.not_true, if_true, if_false]
    simp
    rw [zxor_cancel _ _ _ (by rw [polyBits_length, hl2])]

/-- The CRC run is linear over GF(2) in (state, message). -/
theorem crcRun_zxor (m1 : List Bool) : ∀ (m2 : List Bool), m1.length = m2.length →
    ∀ (s1 s2 : List Bool), s1.length = 32 → s2.length = 32 →
    crcRun (zxor m1 m2) (zxor s1 s2) = zxor (crcRun m1 s1) (crcRun m2 s2) := by
  induction m1 with
  | nil =>
    intro m2 h s1 s2 h1 h2
    have hm : m2 = [] := List.length_eq_zero.mp h.symm
    subst hm
    rfl
  | cons b1 t1 ih =>
    intro m2 h s1 s2 h1 h2
    cases m2 with
    | nil => simp at h
    | cons b2 t2 =>
      rw [zxor_cons]
      show crcRun (zxor t1 t2) (crcStep (zxor s1 s2) (Bool.xor b1 b2)) = _
      rw [crcStep_zxor s1 s2 h1 h2 b1 b2]
      exact ih t2 (by simpa using h) (crcStep s1 b1) (crcStep s2 b2)
        (crcStep_length h1 b1) (crcStep_length h2 b2)

/-- A run over a concatenated message is the composition of the runs. -/
theorem crcRun_append (m1 : List Bool) : ∀ (m2 s : List Bool),
    crcRun (m1 ++ m2) s = crcRun m2 (crcRun m1 s) := by
  induction m1 with
  | nil => intro m2 s; rfl
  | cons b t ih => intro m2 s; exact ih m2 (crcStep s b)

/-- A zero bit leaves the zero state unchanged. -/
theorem crcStep_zeros : crcStep (List.replicate 32 false) false =
    List.replicate 32 false := by
  decide

/-- A one bit sends the zero state to the polynomial. -/
theorem crcStep_zeros_true : crcStep (List.replicate 32 false) true = polyBits := by
  decide

/-- Zero bits keep the zero state at zero. -/
theorem crcRun_falses (q : Nat) :
    crcRun (List.replicate q false) (List.replicate 32 false) =
      List.replicate 32 false := by
  induction q with
  | zero => rfl
  | succ q ih =>
    rw [List.replicate_succ]
    show crcRun (List.replicate q false) (crcStep (List.replicate 32 false) false) = _
    rw [crcStep_zeros]
    exact ih

/-- A zero input bit cannot clear a nonzero state: either the shifted-out bit
triggers the polynomial, whose top bit is set, or a surviving one shifts down. -/
theorem crcStep_keeps_one (s : List Bool) (h : s.length = 32) (hz : true ∈ s) :
    true ∈ crcStep s false := by
  cases s with
  | nil => simp at h
  | cons a t =>
  have htl : t.length = 31 := by
    simp only [List.length_cons] at h
    omega
  unfold crcStep
  simp only [List.getD_cons_zero, Bool.xor_false, List.drop_succ_cons,
    List.drop_zero]
  cases a with
  | true =>
    rw [if_pos rfl]
    have hlen : (t ++ [false]).length = 32 := by simp [htl]
    have hzlen : (zxor (t ++ [false]) polyBits).length = 32 := by
      unfold zxor
      rw [List.length_zipWith, hlen, polyBits_length]
      simp
    have h31 : (zxor (t ++ [false]) polyBits).getD 31 false = true := by
      rw [zxor_getD _ _ 31 (by omega) (by rw [polyBits_length]; omega)]
      have hT : (t ++ [false]).getD 31 false = false := by
        rw [List.getD_append_right _ _ _ _ (by omega)]
        rw [htl]
        rfl
      rw [hT]
      decide
    rw [List.getD_eq_getElem _ _ (by omega)] at h31
    rw [← h31]
    exact List.getElem_mem _
  | false =>
    rw [if_neg (by simp)]
    have hmem : true ∈ t := by simpa using hz
    exact List.mem_append_left _ hmem

/-- Zero bits never clear a nonzero state. -/
theorem crcRun_falses_keeps_one (q : Nat) : ∀ (s : List Bool), s.length = 32 →
    true ∈ s → true ∈ crcRun (List.replicate q false) s := by
  induction q with
  | zero => intro s _ hz; exact hz
  | succ q ih =>
    intro s h hz
    rw [List.replicate_succ]
    show true ∈ crcRun (List.replicate q false) (crcStep s false)
    exact ih (crcStep s false) (crcStep_length h false) (crcStep_keeps_one s h hz)

/-- Running a unit vector from the zero state gives a nonzero state. -/
theorem crcRun_unitvec (p q : Nat) :
    true ∈ crcRun (List.replicate p false ++ true :: List.replicate q false)
      (List.replicate 32 false) := by
  rw [crcRun_append, crcRun_falses]
  show true ∈ crcRun (List.replicate q false)
    (crcStep (List.replicate 32 false) true)
  rw [crcStep_zeros_true]
  exact crcRun_falses_keeps_one q polyBits rfl (by decide)

/-- Difference vector of two bit lists differing in exactly one position. -/
theorem zxor_unit (X : List Bool) (z : Bool) (Y : List Bool) :
    zxor (X ++ z :: Y) (X ++ (!z) :: Y) =
      List.replicate X.length false ++ true :: List.replicate Y.length false := by
  unfold zxor
  rw [List.zipWith_append _ _ _ _ _ rfl]
  have h1 : List.zipWith Bool.xor X X = List.replicate X.length false := zxor_self X
  have h2 : List.zipWith Bool.xor Y Y = List.replicate Y.length false := zxor_self Y
  simp only [List.zipWith_cons_cons]
  rw [h1, h2, show Bool.xor z (!z) = true from by cases z <;> rfl]

/-- Two messages differing in exactly one bit have different CRC runs. -/
theorem crcRun_flip_ne (X : List Bool) (z : Bool) (Y : List Bool) :
    crcRun (X ++ z :: Y) (List.replicate 32 true) ≠
      crcRun (X ++ (!z) :: Y) (List.replicate 32 true) := by
  intro heq
  have hlin := crcRun_zxor (X ++ z :: Y) (X ++ (!z) :: Y) (by simp)
    (List.replicate 32 true) (List.replicate 32 true) (by simp) (by simp)
  rw [zxor_unit, heq, zxor_self, zxor_self] at hlin
  rw [List.length_replicate] at hlin
  rw [crcRun_length _ (by simp)] at hlin
  have hmem := crcRun_unitvec X.length Y.length
  rw [hlin] at hmem
  exact absurd (List.eq_of_mem_replicate hmem) (by simp)

/-- Bit lists of equal length denoting the same number are equal. -/
theorem natOfBits_inj (l1 : List Bool) : ∀ (l2 : List Bool),
    l1.length = l2.length → natOfBits l1 = natOfBits l2 → l1 = l2 := by
  induction l1 with
  | nil =>
    intro l2 h _
    exact (List.length_eq_zero.mp h.symm).symm
  | cons b1 t1 ih =>
    intro l2 h heq
    cases l2 with
    | nil => simp at h
    | cons b2 t2 =>
      have hstep : b1 = b2 ∧ natOfBits t1 = natOfBits t2 := by
        cases b1 <;> cases b2 <;> simp [natOfBits] at heq ⊢ <;> omega
      rw [hstep.1, ih t2 (by simpa using h) hstep.2]

/-- Flipping one bit of a byte changes exactly one position of its bit list. -/
theorem byteBits_flip (b t : Nat) (ht : t < 8) :
    ∃ X z Y, byteBits b = X ++ z :: Y ∧
      byteBits (b ^^^ 2 ^ t) = X ++ (!z) :: Y ∧ X.length = t := by
  interval_cases t
  · exact ⟨[], b.testBit 0,
      [b.testBit 1, b.testBit 2, b.testBit 3, b.testBit 4, b.testBit 5,
       b.testBit 6, b.testBit 7], rfl, by simp only [byteBits, Nat.testBit_xor, Nat.testBit_two_pow, List.cons.injEq]; norm_num, rfl⟩
  · exact ⟨[b.testBit 0], b.testBit 1,
      [b.testBit 2, b.testBit 3, b.testBit 4, b.testBit 5, b.testBit 6,
       b.testBit 7], rfl, by simp only [byteBits, Nat.testBit_xor, Nat.testBit_two_pow, List.cons.injEq]; norm_num, rfl⟩
  · exact ⟨[b.testBit 0, b.testBit 1], b.testBit 2,
      [b.testBit 3, b.testBit 4, b.testBit 5, b.testBit 6, b.testBit 7], rfl,
      by simp only [byteBits, Nat.testBit_xor, Nat.testBit_two_pow, List.cons.injEq]; norm_num, rfl⟩
  · exact ⟨[b.testBit 0, b.testBit 1, b.testBit 2], b.testBit 3,
      [b.testBit 4, b.testBit 5, b.testBit 6, b.testBit 7], rfl,
      by simp only [byteBits, Nat.testBit_xor, Nat.testBit_two_pow, List.cons.injEq]; norm_num, rfl⟩
  · exact ⟨[b.testBit 0, b.testBit 1, b.testBit 2, b.testBit 3], b.testBit 4,
      [b.testBit 5, b.testBit 6, b.testBit 7], rfl,
      by simp only [byteBits, Nat.testBit_xor, Nat.testBit_two_pow, List.cons.injEq]; norm_num, rfl⟩
  · exact ⟨[b.testBit 0, b.testBit 1, b.testBit 2, b.testBit 3, b.testBit 4],
      b.testBit 5, [b.testBit 6, b.testBit 7], rfl,
      by simp only [byteBits, Nat.testBit_xor, Nat.testBit_two_pow, List.cons.injEq]; norm_num, rfl⟩
  · exact ⟨[b.testBit 0, b.testBit 1, b.testBit 2, b.testBit 3, b.testBit 4,
      b.testBit 5], b.testBit 6, [b.testBit 7], rfl,
      by simp only [byteBits, Nat.testBit_xor, Nat.testBit_two_pow, List.cons.injEq]; norm_num, rfl⟩
  · exact ⟨[b.testBit 0, b.testBit 1, b.testBit 2, b.testBit 3, b.testBit 4,
      b.testBit 5, b.testBit 6], b.testBit 7, [], rfl,
      by simp only [byteBits, Nat.testBit_xor, Nat.testBit_two_pow, List.cons.injEq]; norm_num, rfl⟩

/-- The bits of a concatenation are the concatenated bits. -/
theorem bytesBits_append (l1 : List Nat) : ∀ (l2 : List Nat),
    bytesBits (l1 ++ l2) = bytesBits l1 ++ bytesBits l2 := by
  induction l1 with
  | nil => intro l2; rfl
  | cons b t ih =>
    intro l2
    show byteBits b ++ bytesBits (t ++ l2) = (byteBits b ++ bytesBits t) ++ bytesBits l2
    rw [ih l2, List.append_assoc]

/-- Complementing each bit is injective. -/
theorem map_not_inj {l1 l2 : List Bool} (h : l1.map Bool.not = l2.map Bool.not) :
    l1 = l2 := by
  have h2 := congrArg (List.map Bool.not) h
  simpa [List.map_map, Function.comp_def, Bool.not_not] using h2

/-- CRC-32 distinguishes any byte string from the same string with exactly
one bit of one byte flipped. -/
theorem crc32_flip_ne (A : List Nat) (b t : Nat) (ht : t < 8) (C : List Nat) :
    crc32 (A ++ (b ^^^ 2 ^ t) :: C) ≠ crc32 (A ++ b :: C) := by
  obtain ⟨X, z, Y, hX, hX', -⟩ := byteBits_flip b t ht
  intro heq
  unfold crc32 at heq
  have hrun := natOfBits_inj _ _ (by
    rw [List.length_map, List.length_map, crcRun_length _ (by simp),
      crcRun_length _ (by simp)]) heq
  have hrun2 := map_not_inj hrun
  have hm1 : bytesBits (A ++ (b ^^^ 2 ^ t) :: C) =
      (bytesBits A ++ X) ++ (!z) :: (Y ++ bytesBits C) := by
    rw [bytesBits_append]
    show bytesBits A ++ (byteBits (b ^^^ 2 ^ t) ++ bytesBits C) = _
    rw [hX']
    simp [List.append_assoc]
  have hm2 : bytesBits (A ++ b :: C) =
      (bytesBits A ++ X) ++ z :: (Y ++ bytesBits C) := by
    rw [bytesBits_append]
    show bytesBits A ++ (byteBits b ++ bytesBits C) = _
    rw [hX]
    simp [List.append_assoc]
  rw [hm1, hm2] at hrun2
  exact crcRun_flip_ne (bytesBits A ++ X) z (Y ++ bytesBits C) hrun2.symm

/-! ## Decoding a frame with one flipped bit -/

/-- Flipping a bit changes the byte. -/
theorem flipByte_ne (b t : Nat) : flipByte b t ≠ b := by
  intro h
  have h2 := congrArg (fun x => x.testBit t) h
  simp only [flipByte] at h2
  rw [Nat.testBit_xor, Nat.testBit_two_pow] at h2
  simp at h2

/-- Flipping a bit of one byte of a little-endian u32 changes its value. -/
theorem fromLE4_set_ne (n : Nat) (hn : n < 4294967296) (m t : Nat) (hm : m < 4) :
    fromLE4 ((toLE4 n).set m (flipByte ((toLE4 n).getD m 0) t)) ≠ n := by
  intro h
  interval_cases m
  · have h0 : fromLE4 ((toLE4 n).set 0 (flipByte ((toLE4 n).getD 0 0) t)) =
        flipByte (n % 256) t + 256 * (n / 256 % 256) + 65536 * (n / 65536 % 256) +
          16777216 * (n / 16777216 % 256) := rfl
    rw [h0] at h
    exact flipByte_ne (n % 256) t (by omega)
  · have h0 : fromLE4 ((toLE4 n).set 1 (flipByte ((toLE4 n).getD 1 0) t)) =
        n % 256 + 256 * flipByte (n / 256 % 256) t + 65536 * (n / 65536 % 256) +
          16777216 * (n / 16777216 % 256) := rfl
    rw [h0] at h
    exact flipByte_ne (n / 256 % 256) t (by omega)
  · have h0 : fromLE4 ((toLE4 n).set 2 (flipByte ((toLE4 n).getD 2 0) t)) =
        n % 256 + 256 * (n / 256 % 256) + 65536 * flipByte (n / 65536 % 256) t +
          16777216 * (n / 16777216 % 256) := rfl
    rw [h0] at h
    exact flipByte_ne (n / 65536 % 256) t (by omega)
  · have h0 : fromLE4 ((toLE4 n).set 3 (flipByte ((toLE4 n).getD 3 0) t)) =
        n % 256 + 256 * (n / 256 % 256) + 65536 * (n / 65536 % 256) +
          16777216 * flipByte (n / 16777216 % 256) t := rfl
    rw [h0] at h
    exact flipByte_ne (n / 16777216 % 256) t (by omega)

/-- Setting an element beyond the taken region leaves the region unchanged. -/
theorem take_set_of_le (x : Nat) (l : List Nat) : ∀ (n p : Nat), n ≤ p →
    (l.set p x).take n = l.take n := by
  induction l with
  | nil => intro n p _; rfl
  | cons a u ih =>
    intro n p h
    cases p with
    | zero =>
      have hn : n = 0 := by omega
      subst hn
      rfl
    | succ p =>
      cases n with
      | zero => rfl
      | succ n =>
        show a :: (u.set p x).take n = a :: u.take n
        rw [ih n p (by omega)]

/-- Every list splits at any position into the part before, the element
there, and the part after. -/
theorem take_getD_drop (l : List Nat) : ∀ (p : Nat), p < l.length →
    l = l.take p ++ l.getD p 0 :: l.drop (p + 1) := by
  induction l with
  | nil => intro p h; simp at h
  | cons a u ih =>
    intro p h
    cases p with
    | zero => rfl
    | succ p =>
      show a :: u = a :: (u.take p ++ u.getD p 0 :: u.drop (p + 1))
      rw [← ih p (by simpa using h)]

/-- Decode on a frame-shaped buffer whose rec_len field reads `L` within
bounds reduces to `decodeFrame`. -/
theorem decode_to_frame (L : Nat) (body : List Nat)
    (hL1 : 22 ≤ L) (hL2 : L ≤ 2097152) (hbody : body.length = L - 8) :
    Record.decode (MAGIC ++ (toLE4 L ++ body)) = decodeFrame (toLE4 L) body [] := by
  unfold Record.decode
  rw [readExact_append 4 MAGIC _ rfl]
  dsimp only
  rw [if_neg (by simp)]
  rw [readExact_append 4 (toLE4 L) _ (toLE4_length _)]
  dsimp only
  rw [fromLE4_toLE4 (by omega)]
  rw [if_neg (by
    have h1 : HEADER_SIZE = 18 := rfl
    have h4 : MAX_RECORD_SIZE = 2097152 := rfl
    omega)]
  rw [readExact_exact _ _ (by omega)]

/-- A frame body whose stored CRC disagrees with the computed CRC is
rejected with `CrcMismatch`. -/
theorem decodeFrame_crc_fail (recLenBytes T C rest : List Nat) (hC : C.length = 4)
    (hne : fromLE4 C ≠ crc32 (recLenBytes ++ T)) :
    decodeFrame recLenBytes (T ++ C) rest =
      .error (.crcMismatch (fromLE4 C) (crc32 (recLenBytes ++ T))) := by
  unfold decodeFrame
  have hidx : (T ++ C).length - 4 = T.length := by simp [hC]
  rw [hidx, List.drop_left, List.take_left, if_pos hne]

/-- The frame of a record, grouped as magic, covered body, stored CRC. -/
theorem encode_eq_mid (r : Record) :
    r.encode = MAGIC ++
      ((toLE4 (HEADER_SIZE + r.key.length + r.value.length + 4) ++
        (VERSION :: r.kind.toByte :: (toLE4 r.key.length ++ (toLE4 r.value.length ++
          (r.key ++ r.value))))) ++
       toLE4 (crc32 (toLE4 (HEADER_SIZE + r.key.length + r.value.length + 4) ++
        (VERSION :: r.kind.toByte :: (toLE4 r.key.length ++ (toLE4 r.value.length ++
          (r.key ++ r.value))))))) := by
  simp [Record.encode, List.append_assoc]

/-- Setting a position to its bit-flipped byte changes the list. -/
theorem set_flip_ne (l : List Nat) (j t : Nat) (hj : j < l.length) :
    l.set j (flipByte (l.getD j 0) t) ≠ l := by
  intro h
  have h2 := congrArg (fun x => x.getD j 0) h
  dsimp only at h2
  rw [List.getD_eq_getElem _ _ (by rw [List.length_set]; exact hj),
    List.getElem_set_self] at h2
  exact flipByte_ne (l.getD j 0) t h2

/-- A bit flip inside the 4 magic bytes is rejected as `InvalidMagic`. -/
theorem decode_flip_magic (T : List Nat) (j t : Nat) (hj : j < 4) :
    ∃ e, Record.decode ((MAGIC ++ T).set j (flipByte ((MAGIC ++ T).getD j 0) t)) =
      .error e ∧ allowedCorruptionError e = true := by
  have hjm : j < MAGIC.length := hj
  rw [List.set_append_left j _ hjm, List.getD_append MAGIC T 0 j hjm]
  refine ⟨.invalidMagic MAGIC (MAGIC.set j (flipByte (MAGIC.getD j 0) t)), ?_, rfl⟩
  unfold Record.decode
  rw [readExact_append 4 (MAGIC.set j (flipByte (MAGIC.getD j 0) t)) T
    (by rw [List.length_set]; rfl)]
  dsimp only
  rw [if_pos (set_flip_ne MAGIC j t hjm)]

/-- Field extraction on a frame body truncated below the full record length
fails with `UnexpectedEof` (payload area shorter than the length fields
announce). -/
theorem decodeFields_truncated (kind : RecordKind) (b0 b1 q : Nat)
    (key val crcB rest : List Nat)
    (hk : key.length ≤ 1024) (hv : val.length ≤ 1048576)
    (hcrcB : crcB.length = 4)
    (h12 : 12 ≤ q) (hq : q < 12 + key.length + val.length) :
    decodeFields kind
      (b0 :: b1 :: (((toLE4 key.length ++ (toLE4 val.length ++ (key ++ val))) ++
        crcB).take q)) rest = .error .unexpectedEof := by
  simp only [List.append_assoc]
  have hkey4 : (((b0 :: b1 :: ((toLE4 key.length ++ (toLE4 val.length ++
      (key ++ (val ++ crcB)))).take q)) : List Nat).drop 2).take 4 =
      toLE4 key.length := by
    show (((toLE4 key.length ++ (toLE4 val.length ++ (key ++ (val ++ crcB)))).take
      q).take 4) = toLE4 key.length
    rw [List.take_take, Nat.min_eq_left (by omega),
      List.take_left' (toLE4_length _)]
  have hval4 : (((b0 :: b1 :: ((toLE4 key.length ++ (toLE4 val.length ++
      (key ++ (val ++ crcB)))).take q)) : List Nat).drop 6).take 4 =
      toLE4 val.length := by
    show ((((toLE4 key.length ++ (toLE4 val.length ++ (key ++ (val ++ crcB)))).take
      q).drop 4).take 4) = toLE4 val.length
    rw [List.drop_take, List.drop_left' (toLE4_length _), List.take_take,
      Nat.min_eq_left (by omega), List.take_left' (toLE4_length _)]
  unfold decodeFields
  rw [hkey4, hval4, fromLE4_toLE4 (by omega), fromLE4_toLE4 (by omega)]
  rw [if_neg (show ¬(key.length > MAX_KEY_SIZE) from by
    have h1 : MAX_KEY_SIZE = 1024 := rfl
    omega)]
  rw [if_neg (show ¬(val.length > MAX_VALUE_SIZE) from by
    have h1 : MAX_VALUE_SIZE = 1048576 := rfl
    omega)]
  rw [if_pos (show 10 + key.length + val.length >
      ((b0 :: b1 :: ((toLE4 key.length ++ (toLE4 val.length ++
        (key ++ (val ++ crcB)))).take q)) : List Nat).length - 4 from by
    have hlen : ((toLE4 key.length ++ (toLE4 val.length ++
        (key ++ (val ++ crcB)))) : List Nat).length =
        12 + key.length + val.length := by
      simp [toLE4]
      omega
    rw [List.length_cons, List.length_cons, List.length_take, hlen]
    omega)]

/-- The CRC/version/kind stage on a truncated frame body either reports a
CRC mismatch or falls through to the `UnexpectedEof` of the field stage;
either way decoding fails with an allowed corruption error. -/
theorem decodeFrame_truncated (recLenBytes : List Nat) (kb q : Nat)
    (key val crcB rest : List Nat)
    (hkb : kb = KIND_PUT ∨ kb = KIND_DELETE)
    (hcrcB : crcB.length = 4)
    (hk : key.length ≤ 1024) (hv : val.length ≤ 1048576)
    (h12 : 12 ≤ q) (hq : q < 12 + key.length + val.length) :
    ∃ e, decodeFrame recLenBytes
      (VERSION :: kb :: (((toLE4 key.length ++ (toLE4 val.length ++
        (key ++ val))) ++ crcB).take q)) rest = .error e ∧
      allowedCorruptionError e = true := by
  set R : List Nat := VERSION :: kb :: (((toLE4 key.length ++
    (toLE4 val.length ++ (key ++ val))) ++ crcB).take q) with hR
  have hg0 : R.getD 0 0 = VERSION := by rw [hR]; rfl
  have hg1 : R.getD 1 0 = kb := by rw [hR]; rfl
  unfold decodeFrame
  rw [hg0, hg1]
  by_cases hc : fromLE4 (R.drop (R.length - 4)) ≠
      crc32 (recLenBytes ++ R.take (R.length - 4))
  · rw [if_pos hc]
    exact ⟨_, rfl, rfl⟩
  · rw [if_neg hc, if_neg (show ¬(VERSION ≠ VERSION) from fun h => h rfl)]
    rcases hkb with rfl | rfl
    · rw [if_pos rfl, hR]
      exact ⟨.unexpectedEof, decodeFields_truncated .put VERSION KIND_PUT q
        key val crcB rest hk hv hcrcB h12 hq, rfl⟩
    · rw [if_neg (show ¬(KIND_DELETE = KIND_PUT) from by decide),
        if_pos rfl, hR]
      exact ⟨.unexpectedEof, decodeFields_truncated .delete VERSION KIND_DELETE q
        key val crcB rest hk hv hcrcB h12 hq, rfl⟩

/-- A bit flip inside the 4 `rec_len` bytes of a well-formed frame is
rejected: the corrupted length is out of bounds (`UnexpectedEof`), overruns
the file (io `UnexpectedEof`), or truncates the frame (`CrcMismatch` or
`UnexpectedEof`). -/
theorem decode_flip_reclen (L kb m t : Nat) (key val crcB : List Nat)
    (hL : L = HEADER_SIZE + key.length + val.length + 4)
    (hm : m < 4) (hcrcB : crcB.length = 4)
    (hkb : kb = KIND_PUT ∨ kb = KIND_DELETE)
    (hk : key.length ≤ 1024) (hv : val.length ≤ 1048576) :
    ∃ e, Record.decode (MAGIC ++
      (((toLE4 L).set m (flipByte ((toLE4 L).getD m 0) t)) ++
        (VERSION :: kb :: ((toLE4 key.length ++ (toLE4 val.length ++
          (key ++ val))) ++ crcB)))) = .error e ∧
      allowedCorruptionError e = true := by
  have hH : HEADER_SIZE = 18 := rfl
  have hlen4 : ((toLE4 L).set m (flipByte ((toLE4 L).getD m 0) t)).length = 4 := by
    rw [List.length_set]; rfl
  have hne : fromLE4 ((toLE4 L).set m (flipByte ((toLE4 L).getD m 0) t)) ≠ L :=
    fromLE4_set_ne L (by omega) m t hm
  have htail : ((VERSION :: kb :: ((toLE4 key.length ++ (toLE4 val.length ++
      (key ++ val))) ++ crcB)) : List Nat).length = L - 8 := by
    simp [toLE4, hcrcB]
    omega
  unfold Record.decode
  rw [readExact_append 4 MAGIC _ rfl]
  dsimp only
  rw [if_neg (by simp)]
  rw [readExact_append 4 _ _ hlen4]
  dsimp only
  by_cases hb : fromLE4 ((toLE4 L).set m (flipByte ((toLE4 L).getD m 0) t)) <
      HEADER_SIZE + 4 ∨
      fromLE4 ((toLE4 L).set m (flipByte ((toLE4 L).getD m 0) t)) >
        MAX_RECORD_SIZE
  · rw [if_pos hb]
    exact ⟨.unexpectedEof, rfl, rfl⟩
  · rw [if_neg hb]
    push_neg at hb
    obtain ⟨hb1, hb2⟩ := hb
    have h22 : 22 ≤ fromLE4 ((toLE4 L).set m (flipByte ((toLE4 L).getD m 0) t)) := by
      omega
    rcases Nat.lt_trichotomy
      (fromLE4 ((toLE4 L).set m (flipByte ((toLE4 L).getD m 0) t))) L with
      hlt | heq | hgt
    · rw [show readExact
          (fromLE4 ((toLE4 L).set m (flipByte ((toLE4 L).getD m 0) t)) - 8)
          (VERSION :: kb :: ((toLE4 key.length ++ (toLE4 val.length ++
            (key ++ val))) ++ crcB)) =
          some ((VERSION :: kb :: ((toLE4 key.length ++ (toLE4 val.length ++
              (key ++ val))) ++ crcB)).take
            (fromLE4 ((toLE4 L).set m (flipByte ((toLE4 L).getD m 0) t)) - 8),
            (VERSION :: kb :: ((toLE4 key.length ++ (toLE4 val.length ++
              (key ++ val))) ++ crcB)).drop
            (fromLE4 ((toLE4 L).set m (flipByte ((toLE4 L).getD m 0) t)) - 8))
          from by
        unfold readExact
        rw [if_pos (by rw [htail]; omega)]]
      rw [show ((VERSION :: kb :: ((toLE4 key.length ++ (toLE4 val.length ++
          (key ++ val))) ++ crcB)) : List Nat).take
          (fromLE4 ((toLE4 L).set m (flipByte ((toLE4 L).getD m 0) t)) - 8) =
          VERSION :: kb :: (((toLE4 key.length ++ (toLE4 val.length ++
            (key ++ val))) ++ crcB).take
            (fromLE4 ((toLE4 L).set m (flipByte ((toLE4 L).getD m 0) t)) - 10))
          from by
        rw [show fromLE4 ((toLE4 L).set m (flipByte ((toLE4 L).getD m 0) t)) - 8 =
          fromLE4 ((toLE4 L).set m (flipByte ((toLE4 L).getD m 0) t)) - 10 + 1 + 1
          from by omega]
        rfl]
      exact decodeFrame_truncated _ kb
        (fromLE4 ((toLE4 L).set m (flipByte ((toLE4 L).getD m 0) t)) - 10)
        key val crcB _ hkb hcrcB hk hv (by omega) (by omega)
    · exact absurd heq hne
    · rw [readExact_eq_none.mpr (by rw [htail]; omega)]
      exact ⟨.ioUnexpectedEof, rfl, by decide⟩

/-- A bit flip inside the covered body of a well-formed frame (rec_len
excluded) is rejected as `CrcMismatch`. -/
theorem decode_flip_body (L p t : Nat) (M : List Nat)
    (hL1 : 22 ≤ L) (hL2 : L ≤ 2097152) (hM : M.length = L - 8)
    (hMt : M.take 4 = toLE4 L) (h4p : 4 ≤ p) (hpM : p < M.length)
    (ht : t < 8) :
    ∃ e, Record.decode (MAGIC ++
        ((M.set p (flipByte (M.getD p 0) t)) ++ toLE4 (crc32 M))) =
      .error e ∧ allowedCorruptionError e = true := by
  have hlenset : (M.set p (flipByte (M.getD p 0) t)).length = M.length :=
    List.length_set M p _
  have htake4 : (M.set p (flipByte (M.getD p 0) t)).take 4 = toLE4 L := by
    rw [take_set_of_le _ M 4 p h4p, hMt]
  have hsplit : M.set p (flipByte (M.getD p 0) t) =
      toLE4 L ++ (M.set p (flipByte (M.getD p 0) t)).drop 4 := by
    calc M.set p (flipByte (M.getD p 0) t) =
        (M.set p (flipByte (M.getD p 0) t)).take 4 ++
          (M.set p (flipByte (M.getD p 0) t)).drop 4 :=
      (List.take_append_drop 4 _).symm
    _ = toLE4 L ++ (M.set p (flipByte (M.getD p 0) t)).drop 4 := by rw [htake4]
  have hne : fromLE4 (toLE4 (crc32 M)) ≠
      crc32 (toLE4 L ++ (M.set p (flipByte (M.getD p 0) t)).drop 4) := by
    rw [fromLE4_toLE4 (crc32_lt M), ← hsplit,
      List.set_eq_take_cons_drop (flipByte (M.getD p 0) t) hpM]
    conv_lhs => rw [take_getD_drop M p hpM]
    simp only [flipByte]
    exact (crc32_flip_ne (M.take p) (M.getD p 0) t ht (M.drop (p + 1))).symm
  have hshape : M.set p (flipByte (M.getD p 0) t) ++ toLE4 (crc32 M) =
      toLE4 L ++ ((M.set p (flipByte (M.getD p 0) t)).drop 4 ++
        toLE4 (crc32 M)) := by
    conv_lhs => rw [hsplit]
    rw [List.append_assoc]
  rw [hshape]
  rw [decode_to_frame L _ hL1 hL2 (by
    rw [List.length_append, List.length_drop, hlenset, hM, toLE4_length]
    omega)]
  rw [decodeFrame_crc_fail (toLE4 L) _ _ [] (toLE4_length _) hne]
  exact ⟨_, rfl, rfl⟩

/-- A bit flip inside the 4 stored CRC bytes of a well-formed frame is
rejected as `CrcMismatch`. -/
theorem decode_flip_crc (L m t : Nat) (M : List Nat)
    (hL1 : 22 ≤ L) (hL2 : L ≤ 2097152) (hM : M.length = L - 8)
    (hMt : M.take 4 = toLE4 L) (hm : m < 4) :
    ∃ e, Record.decode (MAGIC ++
        (M ++ (toLE4 (crc32 M)).set m (flipByte ((toLE4 (crc32 M)).getD m 0) t))) =
      .error e ∧ allowedCorruptionError e = true := by
  have hsplit : M = toLE4 L ++ M.drop 4 := by
    calc M = M.take 4 ++ M.drop 4 := (List.take_append_drop 4 M).symm
    _ = toLE4 L ++ M.drop 4 := by rw [hMt]
  have hClen : ((toLE4 (crc32 M)).set m
      (flipByte ((toLE4 (crc32 M)).getD m 0) t)).length = 4 := by
    rw [List.length_set]; rfl
  have hne : fromLE4 ((toLE4 (crc32 M)).set m
      (flipByte ((toLE4 (crc32 M)).getD m 0) t)) ≠ crc32 (toLE4 L ++ M.drop 4) := by
    rw [← hsplit]
    exact fromLE4_set_ne (crc32 M) (crc32_lt M) m t hm
  have h1 : M ++ (toLE4 (crc32 M)).set m
      (flipByte ((toLE4 (crc32 M)).getD m 0) t) =
      (toLE4 L ++ M.drop 4) ++ (toLE4 (crc32 M)).set m
        (flipByte ((toLE4 (crc32 M)).getD m 0) t) := by
    rw [← hsplit]
  have hshape := h1.trans (List.append_assoc _ _ _)
  rw [hshape]
  rw [decode_to_frame L _ hL1 hL2 (by
    rw [List.length_append, List.length_drop, hM, hClen]
    omega)]
  rw [decodeFrame_crc_fail (toLE4 L) _ _ [] hClen hne]
  exact ⟨_, rfl, rfl⟩

/-- C7 (amended): flipping any single bit of the frame of an in-limit record
makes decode fail, with one of the five corruption errors of the claim or
with the io-surfaced `UnexpectedEof` produced by a short read after a
corrupted `rec_len`; never a silent acceptance. -/
theorem claim_c7_bit_flip_detected (r : Record)
    (hk : r.key.length ≤ 1024) (hv : r.value.length ≤ 1048576)
    (i : Nat) (hi : i < 8 * r.encode.length) :
    ∃ e, Record.decode (flipBit r.encode i) = .error e ∧
      allowedCorruptionError e = true := by
  have hH : HEADER_SIZE = 18 := rfl
  have hMAG : MAGIC.length = 4 := rfl
  rw [encode_length] at hi
  simp only [flipBit]
  rw [encode_eq_mid]
  set L := HEADER_SIZE + r.key.length + r.value.length + 4 with hL
  set T : List Nat := VERSION :: r.kind.toByte :: (toLE4 r.key.length ++
    (toLE4 r.value.length ++ (r.key ++ r.value))) with hT
  have hkb : r.kind.toByte = KIND_PUT ∨ r.kind.toByte = KIND_DELETE := by
    cases r.kind
    · exact Or.inl rfl
    · exact Or.inr rfl
  have hL' : L = 22 + r.key.length + r.value.length := by rw [hL, hH]; omega
  have hL1 : 22 ≤ L := by omega
  have hL2 : L ≤ 2097152 := by omega
  have hTlen : T.length = L - 12 := by
    rw [hT]
    simp [toLE4]
    omega
  have hMlen : ((toLE4 L ++ T) : List Nat).length = L - 8 := by
    rw [List.length_append, toLE4_length, hTlen]
    omega
  have hMt : ((toLE4 L ++ T) : List Nat).take 4 = toLE4 L :=
    List.take_left' (toLE4_length L)
  have hj : i / 8 < L := by omega
  have ht8 : i % 8 < 8 := Nat.mod_lt _ (by omega)
  rcases Nat.lt_or_ge (i / 8) 4 with h4 | h4
  · exact decode_flip_magic
      ((toLE4 L ++ T) ++ toLE4 (crc32 (toLE4 L ++ T))) (i / 8) (i % 8) h4
  · rcases Nat.lt_or_ge (i / 8) 8 with h8 | h8
    · have hget : ((MAGIC ++ ((toLE4 L ++ T) ++
          toLE4 (crc32 (toLE4 L ++ T)))) : List Nat).getD (i / 8) 0 =
          (toLE4 L).getD (i / 8 - 4) 0 := by
        rw [List.getD_append_right MAGIC _ 0 (i / 8) (by rw [hMAG]; omega)]
        rw [List.getD_append _ _ 0 _ (by simp only [hMAG, hMlen]; omega)]
        rw [List.getD_append _ _ 0 _ (by simp only [hMAG, toLE4_length]; omega)]
        simp only [hMAG]
      rw [hget]
      have hset : ((MAGIC ++ ((toLE4 L ++ T) ++
          toLE4 (crc32 (toLE4 L ++ T)))) : List Nat).set (i / 8)
            (flipByte ((toLE4 L).getD (i / 8 - 4) 0) (i % 8)) =
          MAGIC ++ ((((toLE4 L).set (i / 8 - 4)
            (flipByte ((toLE4 L).getD (i / 8 - 4) 0) (i % 8))) ++ T) ++
              toLE4 (crc32 (toLE4 L ++ T))) := by
        rw [List.set_append_right (i / 8) _ (by rw [hMAG]; omega)]
        rw [List.set_append_left _ _ (by simp only [hMAG, hMlen]; omega)]
        rw [List.set_append_left _ _ (by simp only [hMAG, toLE4_length]; omega)]
        simp only [hMAG]
      rw [hset, List.append_assoc, hT, List.cons_append, List.cons_append]
      exact decode_flip_reclen L r.kind.toByte (i / 8 - 4) (i % 8)
        r.key r.value _ hL (by omega) (toLE4_length _) hkb hk hv
    · rcases Nat.lt_or_ge (i / 8) (L - 4) with hb | hb
      · have hget : ((MAGIC ++ ((toLE4 L ++ T) ++
            toLE4 (crc32 (toLE4 L ++ T)))) : List Nat).getD (i / 8) 0 =
            ((toLE4 L ++ T) : List Nat).getD (i / 8 - 4) 0 := by
          rw [List.getD_append_right MAGIC _ 0 (i / 8) (by rw [hMAG]; omega)]
          rw [List.getD_append _ _ 0 _ (by simp only [hMAG, hMlen]; omega)]
          simp only [hMAG]
        rw [hget]
        have hset : ((MAGIC ++ ((toLE4 L ++ T) ++
            toLE4 (crc32 (toLE4 L ++ T)))) : List Nat).set (i / 8)
              (flipByte (((toLE4 L ++ T) : List Nat).getD (i / 8 - 4) 0)
                (i % 8)) =
            MAGIC ++ (((toLE4 L ++ T).set (i / 8 - 4)
              (flipByte (((toLE4 L ++ T) : List Nat).getD (i / 8 - 4) 0)
                (i % 8))) ++ toLE4 (crc32 (toLE4 L ++ T))) := by
          rw [List.set_append_right (i / 8) _ (by rw [hMAG]; omega)]
          rw [List.set_append_left _ _ (by simp only [hMAG, hMlen]; omega)]
          simp only [hMAG]
        rw [hset]
        exact decode_flip_body L (i / 8 - 4) (i % 8) (toLE4 L ++ T)
          hL1 hL2 hMlen hMt (by omega) (by rw [hMlen]; omega) ht8
      · have hget : ((MAGIC ++ ((toLE4 L ++ T) ++
            toLE4 (crc32 (toLE4 L ++ T)))) : List Nat).getD (i / 8) 0 =
            (toLE4 (crc32 (toLE4 L ++ T))).getD (i / 8 - 4 - (L - 8)) 0 := by
          rw [List.getD_append_right MAGIC _ 0 (i / 8) (by rw [hMAG]; omega)]
          rw [List.getD_append_right _ _ 0 _
            (by simp only [hMAG, hMlen]; omega)]
          simp only [hMAG, hMlen]
        rw [hget]
        have hset : ((MAGIC ++ ((toLE4 L ++ T) ++
            toLE4 (crc32 (toLE4 L ++ T)))) : List Nat).set (i / 8)
              (flipByte ((toLE4 (crc32 (toLE4 L ++ T))).getD
                (i / 8 - 4 - (L - 8)) 0) (i % 8)) =
            MAGIC ++ ((toLE4 L ++ T) ++
              (toLE4 (crc32 (toLE4 L ++ T))).set (i / 8 - 4 - (L - 8))
                (flipByte ((toLE4 (crc32 (toLE4 L ++ T))).getD
                  (i / 8 - 4 - (L - 8)) 0) (i % 8))) := by
          rw [List.set_append_right (i / 8) _ (by rw [hMAG]; omega)]
          rw [List.set_append_right _ _ (by simp only [hMAG, hMlen]; omega)]
          simp only [hMAG, hMlen]
        rw [hset]
        exact decode_flip_crc L (i / 8 - 4 - (L - 8)) (i % 8) (toLE4 L ++ T)
          hL1 hL2 hMlen hMt (by omega)

set_option maxRecDepth 40000 in
/-- C7 counterexample to the claim as stated: flipping bit 35 of the frame of
the empty put record corrupts `rec_len` upward, so decode fails with the io
error of a short read — an error outside the claim's list of five. -/
theorem claim_c7_counterexample :
    Record.decode (flipBit (Record.mk .put [] []).encode 35) =
      .error .ioUnexpectedEof ∧
    specAllowedError .ioUnexpectedEof = false := by
  constructor
  · rfl
  · rfl

/-- C7 witness: the amended theorem applied to the empty put record at bit 5
(inside the magic). -/
theorem claim_c7_witness :
    (Record.mk .put [] []).key.length ≤ 1024 ∧
    (Record.mk .put [] []).value.length ≤ 1048576 ∧
    5 < 8 * (Record.mk .put [] []).encode.length ∧
    (∃ e, Record.decode (flipBit (Record.mk .put [] []).encode 5) = .error e ∧
      allowedCorruptionError e = true) :=
  ⟨by decide, by decide, by rw [encode_length]; norm_num [HEADER_SIZE],
    claim_c7_bit_flip_detected (Record.mk .put [] []) (by decide) (by decide) 5
      (by rw [encode_length]; norm_num [HEADER_SIZE])⟩

/-- C2 counterexample to the claim as stated: a 1-byte garbage suffix after a
valid frame is treated as clean EOF, so replay leaves the file equal to the
whole input, not to the valid prefix alone. -/
theorem claim_c2_counterexample :
    (walReplay (encodeAll [⟨.put, [], []⟩] ++ [75])).2.2 =
      encodeAll [⟨.put, [], []⟩] ++ [75] ∧
    encodeAll [⟨.put, [], []⟩] ++ [75] ≠ encodeAll [⟨.put, [], []⟩] := by
  have hE : encodeAll [(⟨.put, [], []⟩ : Record)] =
      (Record.mk .put [] []).encode := by
    rw [encodeAll, encodeAll, List.append_nil]
  constructor
  · rw [hE]
    unfold walReplay
    dsimp only
    rw [replayGo_step _ _ _ _ _ (Record.mk .put [] []) [75]
      (decode_encode (Record.mk .put [] []) (by decide) (by decide) [75])]
    rw [replayGo_done _ [75] _ _ _ (by rfl)]
    dsimp only
    rw [List.take_length]
  · intro h
    have h2 := congrArg List.length h
    rw [List.length_append] at h2
    simp at h2

end Kvslite
